import Mathlib

/-!
Verification of the estate-706-sorter classification-and-triage engine.

JavaScript strings are modelled as lists of characters (`Str`), JS numbers
occurring as term weights and scores as `Int` (the weights the validator
accepts are finite numerals; fractional parts play no role in any claim),
and the compiled case-insensitive regular-expression matchers of
`CompiledScheduleConfig` as opaque boolean predicates on strings, matching
the spec's "compiled pattern matchers" collaborator view.  Fallible
JavaScript code (code that can throw) is embedded with `Option`/`Except`:
`none`/`.error` is a thrown exception.
-/

namespace Estate

/-- JS strings as lists of characters. -/
abbrev Str := List Char

/-- Embeds a Lean string literal as a `Str`. -/
def str (s : String) : Str := s.data

/-- The decimal digit character for a digit `d < 10` (JS number-to-string). -/
def digitChar (d : Nat) : Char := Char.ofNat (48 + d)

/-- Decimal rendering with explicit fuel (any fuel above the digit count
computes the full numeral; `natToStr` supplies one that always does). -/
def natToStrAux : Nat → Nat → Str
  | 0, _ => []
  | fuel + 1, n =>
    if n < 10 then [digitChar n] else natToStrAux fuel (n / 10) ++ [digitChar (n % 10)]

/-- Decimal rendering of a natural number, as produced by a JS template
literal such as the backquoted __dup sequence interpolating a counter. -/
def natToStr (n : Nat) : Str := natToStrAux (n + 1) n

/-- Decodes a decimal digit string back to the number it renders
(specification-side inverse of `natToStr`). -/
def decDigits (s : Str) : Nat :=
  s.foldl (fun a c => a * 10 + (c.toNat - 48)) 0

/-- Decimal rendering of a JS integer (negative numbers get a minus sign). -/
def intToStr (x : Int) : Str :=
  if x < 0 then '-' :: natToStr x.natAbs else natToStr x.natAbs

/-- Lower-case alphanumeric test, the character class `[a-z0-9]` of
`normalize.ts`. -/
def isLowerAlnum (c : Char) : Bool :=
  (('a' ≤ c) && (c ≤ 'z')) || (('0' ≤ c) && (c ≤ '9'))

/-- Collapses every run of spaces to a single space (the
`replace(/\s+/g, ' ')` step; at the point it runs, the only whitespace
character left in the string is `' '`).  A space followed by another
space is dropped, which replaces each maximal space run by its final
space — the same canonical form the regex substitution produces. -/
def collapseSpaces : Str → Str
  | [] => []
  | [c] => [c]
  | c1 :: c2 :: rest =>
    if c1 = ' ' ∧ c2 = ' ' then collapseSpaces (c2 :: rest)
    else c1 :: collapseSpaces (c2 :: rest)

/-- Removes leading and trailing spaces. -/
def trimSpaces (s : Str) : Str :=
  (((s.dropWhile (· = ' ')).reverse.dropWhile (· = ' ')).reverse)

/-- `normalizeText` from `normalize.ts`: lower-case, replace every run of
characters outside `[a-z0-9]` with a single space, collapse whitespace
runs and trim.  Replacing each offending character by a space and then
collapsing the space runs computes the same string as replacing each
maximal run by one space, so the two regex passes are embedded as a
character map followed by `collapseSpaces`. -/
def normalizeText (s : Str) : Str :=
  trimSpaces (collapseSpaces (s.map (fun c =>
    let lc := c.toLower
    if isLowerAlnum lc then lc else ' ')))

/-- JS `String.prototype.trim` (whitespace trim of the raw text). -/
def trimWs (s : Str) : Str :=
  ((s.dropWhile Char.isWhitespace).reverse.dropWhile Char.isWhitespace).reverse

/-- Counts the non-overlapping left-to-right occurrences of `pat` in the
scanned string: the `indexOf` loop of `countTermOccurrences`, which
advances past each match.  `skip > 0` means the scanner is still inside
the previous match (the loop's `index + term.length` jump), so no new
match may start there; the caller guarantees `pat` is non-empty. -/
def countOccSkip (pat : Str) : Str → Nat → Nat
  | [], _ => 0
  | c :: rest, skip =>
    if 0 < skip then countOccSkip pat rest (skip - 1)
    else if pat.isPrefixOf (c :: rest) then
      1 + countOccSkip pat rest (pat.length - 1)
    else countOccSkip pat rest 0

/-- `countTermOccurrences` from `normalize.ts`. -/
def countTermOccurrences (text term : Str) : Nat :=
  if text = [] ∨ term = [] then 0
  else
    let normalizedText := normalizeText text
    let normalizedTerm := normalizeText term
    if normalizedTerm = [] then 0
    else countOccSkip normalizedTerm normalizedText 0

/-- A weighted keyword or small term (`WeightedTerm` of `schedules.ts`). -/
structure WeightedTerm where
  term : Str
  weight : Int
deriving DecidableEq

/-- A category definition (`ScheduleDefinition` of `schedules.ts`). -/
structure ScheduleDefinition where
  id : Str
  label : Str
  keywords : List WeightedTerm
  smallTerms : List WeightedTerm
deriving DecidableEq

/-- A compiled filename rule: the `RegExp` produced by
`compileScheduleConfig` is embedded as an opaque total matcher. -/
structure FilenameRule where
  pattern : Str → Bool
  schedule : Str

/-- `CompiledScheduleConfig` of `scheduleConfig.ts`. -/
structure CompiledScheduleConfig where
  schedules : List ScheduleDefinition
  filenameRules : List FilenameRule

def SCORE_FLOOR : Int := 18

def LOW_CONFIDENCE_MARGIN : Int := 6

inductive ClassificationDecision where
  | assigned
  | review
deriving DecidableEq

/-- `ClassificationResult` of `classify.ts`.  The TS optional fields
`schedule?` and `candidate?` are `Option`s; the sentinel `Unknown` is the
string `"Unknown"`, exactly as in TS where `ScheduleId | 'Unknown'` is a
union of strings.  The score record is an insertion-ordered association
list, the iteration order JS gives `Object.entries`. -/
structure ClassificationResult where
  decision : ClassificationDecision
  schedule : Option Str := none
  candidate : Option Str := none
  reason : Str
  score : Int
  scores : List (Str × Int)
deriving DecidableEq

/-- Per-page-sampling metrics of `extractPdfText` (`pdfText.ts`). -/
structure PdfTextResult where
  text : Str
  numPages : Nat
  pagesSampled : Nat
  chars : Nat
  textItems : Nat
deriving DecidableEq

structure ScannedDetectionThresholds where
  minChars : Nat
  minTextItems : Nat
deriving DecidableEq

/-- Assigning `r[k] = v` on a JS object: an existing key keeps its
position and gets the new value, a new key is appended. -/
def recordSet (r : List (Str × Int)) (k : Str) (v : Int) : List (Str × Int) :=
  if r.any (fun p => p.1 = k) then
    r.map (fun p => if p.1 = k then (k, v) else p)
  else r ++ [(k, v)]

/-- The score record built by the `for (const schedule of ...)` loops of
`classifyDocument`: each configured schedule id is assigned `f schedule`. -/
def buildScores (schedules : List ScheduleDefinition) (f : ScheduleDefinition → Int) :
    List (Str × Int) :=
  schedules.foldl (fun r s => recordSet r s.id (f s)) []

/-- The rule loop of `applyFilenameRules`: first matching rule wins. -/
def findRule : List FilenameRule → Str → Option Str
  | [], _ => none
  | r :: rs, fn => if r.pattern fn then some r.schedule else findRule rs fn

/-- `applyFilenameRules` from `classify.ts`. -/
def applyFilenameRules (filename : Str) (config : CompiledScheduleConfig) : Option Str :=
  findRule config.filenameRules filename

/-- One accumulation loop of `scoreSchedule`. -/
def addTermScores (text : Str) (acc : Int) (terms : List WeightedTerm) : Int :=
  terms.foldl (fun a t => a + (countTermOccurrences text t.term : Int) * t.weight) acc

/-- `scoreSchedule` from `classify.ts`: occurrences times weight, summed
over the primary keywords and then the small terms. -/
def scoreSchedule (text : Str) (s : ScheduleDefinition) : Int :=
  addTermScores text (addTermScores text 0 s.keywords) s.smallTerms

/-- Insertion step of a stable descending sort on the score component. -/
def insertDesc (x : Str × Int) : List (Str × Int) → List (Str × Int)
  | [] => [x]
  | y :: ys => if x.2 ≥ y.2 then x :: y :: ys else y :: insertDesc x ys

/-- `Object.entries(scores).sort((a, b) => b[1] - a[1])`: JS `Array.sort`
is required to be stable, and a stable sort for the descending-by-score
preorder yields a unique result, computed here by stable insertion. -/
def sortDesc : List (Str × Int) → List (Str × Int)
  | [] => []
  | x :: xs => insertDesc x (sortDesc xs)

/-- The argument record of `classifyDocument` (`classify.ts`). -/
structure ClassifyOptions where
  filename : Str
  text : Str
  isPdf : Bool
  config : CompiledScheduleConfig
  pdfMetrics : Option PdfTextResult := none
  scannedThresholds : ScannedDetectionThresholds

/-- The reason string of the likely-scanned branch, interpolating the
observed chars, text-item and pages-sampled counts. -/
def scannedReason (m : PdfTextResult) : Str :=
  str "likely_scanned_pdf: low_text_layer (chars=" ++ natToStr m.chars ++
  str ", textItems=" ++ natToStr m.textItems ++
  str ", sampled=" ++ natToStr m.pagesSampled ++ str ")"

/-- The boolean guard of the likely-scanned branch:
`options.isPdf && options.pdfMetrics && options.pdfMetrics.pagesSampled > 0`
followed by `lowChars || lowItems`. -/
def scannedGuard (o : ClassifyOptions) : Bool :=
  o.isPdf && (match o.pdfMetrics with
    | some m =>
      decide (0 < m.pagesSampled) &&
        (decide (m.chars < o.scannedThresholds.minChars) ||
         decide (m.textItems < o.scannedThresholds.minTextItems))
    | none => false)

/-- The empty-text and keyword-scoring tail of `classifyDocument`.  The
destructuring `const [bestScheduleId, bestScore] = sorted[0]` throws a
`TypeError` when `sorted` is empty (destructuring `undefined`), which is
the `none` case here. -/
def classifyTextPhase (o : ClassifyOptions) : Option ClassificationResult :=
  if trimWs o.text = [] then
    some { decision := .review
           candidate := some (str "Unknown")
           reason := str "no_text_or_filename_rule"
           score := 0
           scores := buildScores o.config.schedules (fun _ => 0) }
  else
    let entries := buildScores o.config.schedules (fun s => scoreSchedule o.text s)
    match sortDesc entries with
    | [] => none
    | best :: rest =>
      let runnerUpScore : Int := (rest.head?.map (fun p => p.2)).getD 0
      let margin := best.2 - runnerUpScore
      if best.2 < SCORE_FLOOR ∨ margin < LOW_CONFIDENCE_MARGIN then
        some { decision := .review
               candidate := some best.1
               reason := str "low_confidence"
               score := best.2
               scores := entries }
      else
        some { decision := .assigned
               schedule := some best.1
               reason := str "keyword_score"
               score := best.2
               scores := entries }

/-- `classifyDocument` from `classify.ts` (the compiled-config variant).
The result is `none` exactly when the TS function throws. -/
def classifyDocument (o : ClassifyOptions) : Option ClassificationResult :=
  let normalizedFilename := normalizeText o.filename
  match applyFilenameRules normalizedFilename o.config with
  | some m =>
    some { decision := .assigned
           schedule := some m
           reason := str "filename_rule"
           score := SCORE_FLOOR
           scores := buildScores o.config.schedules
             (fun s => if s.id = m then SCORE_FLOOR else 0) }
  | none =>
    match o.pdfMetrics with
    | some metrics =>
      if o.isPdf && (decide (0 < metrics.pagesSampled) &&
          (decide (metrics.chars < o.scannedThresholds.minChars) ||
           decide (metrics.textItems < o.scannedThresholds.minTextItems))) then
        some { decision := .review
               candidate := some (str "Unknown")
               reason := scannedReason metrics
               score := 0
               scores := buildScores o.config.schedules (fun _ => 0) }
      else classifyTextPhase o
    | none => classifyTextPhase o

/-! Pipeline data model (`App.tsx` section of the application layer). -/

inductive PDecision where
  | duplicate
  | review
  | assigned
deriving DecidableEq

/-- `ProcessedFile` of the application layer. -/
structure ProcessedFile where
  name : Str
  relativePath : Str
  size : Int
  ftype : Str
  hash : Str
  hashPrefix : Str
  decision : PDecision
  schedule : Option Str := none
  candidate : Option Str := none
  reason : Str
  score : Int
  outputPath : Str
  scores : List (Str × Int)
  pdfMetrics : Option PdfTextResult := none
  textSample : Option Str := none
  overrideApplied : Bool := false
deriving DecidableEq

/-- Generic JS `Map.get` over an insertion-ordered association list. -/
def assocGet {β : Type} (m : List (Str × β)) (k : Str) : Option β :=
  (m.find? (fun p => decide (p.1 = k))).map Prod.snd

/-- Generic JS `Map.set`: an existing key keeps its position and gets the
new value, a new key is appended. -/
def assocSet {β : Type} (m : List (Str × β)) (k : Str) (v : β) : List (Str × β) :=
  if m.any (fun p => decide (p.1 = k)) then
    m.map (fun p => if p.1 = k then (k, v) else p)
  else m ++ [(k, v)]

/-- `buildBaseOutputPath` of the application layer.  A JS template literal
interpolates `undefined` as the text `undefined`, hence the `getD` for the
assigned case where `file.schedule` is an optional field. -/
def buildBaseOutputPath (f : ProcessedFile) : Str :=
  match f.decision with
  | .duplicate => str "DUPLICATES/" ++ f.hashPrefix ++ str "/" ++ f.name
  | .review => str "706/ReviewNeeded/" ++ (f.candidate.getD (str "Unknown")) ++ str "/" ++ f.name
  | .assigned => str "706/" ++ (f.schedule.getD (str "undefined")) ++ str "/" ++ f.name

/-- JS `String.prototype.split` with a one-character separator. -/
def splitOnChar (sep : Char) : Str → List Str
  | [] => [[]]
  | c :: rest =>
    if c = sep then [] :: splitOnChar sep rest
    else
      match splitOnChar sep rest with
      | [] => [[c]]
      | p :: ps => (c :: p) :: ps

/-- JS `Array.prototype.join` with a one-character separator. -/
def joinChar (sep : Char) (pieces : List Str) : Str :=
  List.intercalate [sep] pieces

/-- Index of the last `'.'`, JS `String.prototype.lastIndexOf('.')`
(`none` = `-1`). -/
def lastDotIdx (s : Str) : Option Nat :=
  match s.reverse.findIdx? (· = '.') with
  | none => none
  | some j => some (s.length - 1 - j)

/-- The part of `name` before the last dot (`name` itself without one). -/
def dupBase (name : Str) : Str :=
  match lastDotIdx name with
  | none => name
  | some i => name.take i

/-- The extension of `name`: everything from the last dot on. -/
def dupExt (name : Str) : Str :=
  match lastDotIdx name with
  | none => []
  | some i => name.drop i

/-- The candidate built in the collision loop of `ensureUniqueFilename`:
the template `base__dupN ext`. -/
def mkCandidate (base ext : Str) (n : Nat) : Str :=
  base ++ str "__dup" ++ natToStr n ++ ext

/-- The disambiguated name `ensureUniqueFilename` produces for a colliding
`name`, with counter `n`. -/
def dupName (name : Str) (n : Nat) : Str :=
  mkCandidate (dupBase name) (dupExt name) n

/-- The `while (usedNames.has(candidate))` loop of `ensureUniqueFilename`,
trying counters `n, n+1, ...`.  The loop always terminates because the
candidates are pairwise distinct and `used` is finite; a fuel of
`used.length + 1` is enough (proved below), making the fuel-exhausted
fallback unreachable. -/
def ensureLoop (used : List Str) (base ext : Str) : Nat → Nat → Str
  | 0, n => mkCandidate base ext n
  | Nat.succ fuel, n =>
    if mkCandidate base ext n ∈ used then ensureLoop used base ext fuel (n + 1)
    else mkCandidate base ext n

/-- JS `Set.add`. -/
def jsSetAdd (used : List Str) (x : Str) : List Str :=
  if x ∈ used then used else used ++ [x]

/-- `ensureUniqueFilename` of the application layer; the JS version
mutates the used-name set, so the model returns the updated set. -/
def ensureUniqueFilename (name : Str) (used : List Str) : Str × List Str :=
  if name ∈ used then
    let c := ensureLoop used (dupBase name) (dupExt name) (used.length + 1) 1
    (c, jsSetAdd used c)
  else (name, jsSetAdd used name)

/-- The final output path: `dir.length > 0 ? dir + "/" + name : name`. -/
def mkOutputPath (dir name : Str) : Str :=
  if dir.length > 0 then dir ++ '/' :: name else name

/-- The `files.map` body of `assignOutputPaths`, threading the
folder-to-used-names map. -/
def assignGo (m : List (Str × List Str)) : List ProcessedFile → List ProcessedFile
  | [] => []
  | f :: fs =>
    let basePath := buildBaseOutputPath f
    let segments := splitOnChar '/' basePath
    let filename := segments.getLast?.getD f.name
    let dir := joinChar '/' segments.dropLast
    let used := (assocGet m dir).getD []
    let step := ensureUniqueFilename filename used
    let m2 := assocSet m dir step.2
    { f with outputPath := mkOutputPath dir step.1 } :: assignGo m2 fs

/-- `assignOutputPaths` of the application layer. -/
def assignOutputPaths (files : List ProcessedFile) : List ProcessedFile :=
  assignGo [] files

/-! Review clustering (`buildReviewClusters`). -/

structure Cluster where
  id : Str
  tokens : List Str
  items : List ProcessedFile
deriving DecidableEq

/-- The capped ordered token list of one review file: normalized text
sample, split on spaces, tokens longer than 3 characters, first 12. -/
def clusterTokensOf (f : ProcessedFile) : List Str :=
  ((splitOnChar ' ' (normalizeText (f.textSample.getD []))).filter
    (fun token => decide (3 < token.length))).take 12

/-- First-occurrence deduplication with the set of already seen elements
carried as an explicit accumulator (the state of the JS `Set` as it is
filled). -/
def firstDedupAux {α : Type} [DecidableEq α] : List α → List α → List α
  | _, [] => []
  | seen, x :: xs =>
    if x ∈ seen then firstDedupAux seen xs
    else x :: firstDedupAux (seen ++ [x]) xs

/-- First-occurrence deduplication: the iteration order of a JS `Set`
built from a list (`Array.from(new Set(l))`). -/
def firstDedup {α : Type} [DecidableEq α] (l : List α) : List α :=
  firstDedupAux [] l

/-- Count of entries of `tokens` present in the cluster token list:
`tokens.filter((token) => cluster.tokens.includes(token)).length`. -/
def overlapCount (tokens clusterTokens : List Str) : Nat :=
  (tokens.filter (fun token => decide (token ∈ clusterTokens))).length

/-- The inner `for (const cluster of clusters)` loop with `break`: joins
`f` to the first cluster with nonempty tokens and overlap at least 2,
returning `none` when no cluster accepts it. -/
def joinFirst (tokens : List Str) (f : ProcessedFile) : List Cluster → Option (List Cluster)
  | [] => none
  | c :: cs =>
    if (!(c.tokens.isEmpty)) && decide (2 ≤ overlapCount tokens c.tokens) then
      some ({ c with items := c.items ++ [f],
                     tokens := (firstDedup (c.tokens ++ tokens)).take 12 } :: cs)
    else
      match joinFirst tokens f cs with
      | some cs2 => some (c :: cs2)
      | none => none

/-- The per-file step of `buildReviewClusters`. -/
def clusterStep (clusters : List Cluster) (f : ProcessedFile) : List Cluster :=
  let tokens := clusterTokensOf f
  if tokens = [] then
    clusters ++ [{ id := str "cluster-" ++ natToStr (clusters.length + 1),
                   tokens := [], items := [f] }]
  else
    match joinFirst tokens f clusters with
    | some clusters2 => clusters2
    | none =>
      clusters ++ [{ id := str "cluster-" ++ natToStr (clusters.length + 1),
                     tokens := tokens, items := [f] }]

/-- `buildReviewClusters` of the application layer. -/
def buildReviewClusters (files : List ProcessedFile) : List Cluster :=
  files.foldl clusterStep []

/-- A concrete review-queue entry for the cluster theorems: `nm` names
the file and `sample` is its stored `textSample`. -/
def reviewFile (nm sample : String) : ProcessedFile :=
  { name := str nm, relativePath := str nm, size := 0,
    ftype := str "application/pdf", hash := str nm,
    hashPrefix := (str nm).take 10, decision := .review,
    candidate := some (str "Unknown"), reason := str "low_confidence",
    score := 0, outputPath := [], scores := [],
    textSample := some (str sample) }

/-- Shape invariant of every cluster built by `buildReviewClusters`: it
has at least one member; its token list is either the token list of its
only member or the first-occurrence deduplication of its members'
concatenated tokens capped at 12; and a member with zero eligible tokens
is alone in its cluster, which then carries no tokens. -/
def clusterWf (c : Cluster) : Prop :=
  c.items ≠ [] ∧
  ((∃ f, c.items = [f] ∧ c.tokens = clusterTokensOf f) ∨
    c.tokens = (firstDedup (c.items.flatMap clusterTokensOf)).take 12) ∧
  (∀ f ∈ c.items, clusterTokensOf f = [] → c.tokens = [] ∧ c.items = [f])

/-! The processing pipeline of `handleRunSort` with `runWithConcurrency`.

Each worker built by `handleRunSort` is a JS async function; between the
`seenHashes.has(hash)` read and the `seenHashes.set(hash, entry)` write
the only suspension point is `await extractPdfText(buffer)`, taken for
PDF documents only.  The pipeline is embedded as an interleaving machine:
a task per document with an explicit program counter, an atomic segment
from task start up to completion or up to that `await`, and a second
atomic segment resuming after it.  A schedule (list of task indices)
selects which task advances next; under a worker pool of concurrency at
least 2 every such order is realizable by some completion timing of the
async collaborators (`arrayBuffer`, `hashArrayBuffer`, `extractPdfText`),
and the strictly sequential schedule `[0, 0, 1, 1, ...]` is the
concurrency-1 execution. -/

/-- One pipeline input document.  Bytes are summarized by their digest
(`hashArrayBuffer` is the deterministic content-hash collaborator) and by
the fixed outcome of the text-extraction collaborator. -/
structure DocInput where
  name : Str
  relativePath : Str
  size : Int
  ftype : Str
  hash : Str
  extract : Except Str PdfTextResult

/-- `isPdfFile` of the application layer. -/
def isPdfFile (name : Str) : Bool :=
  (str ".pdf").isSuffixOf (name.map Char.toLower)

/-- `getHashPrefix` of the application layer. -/
def getHashPrefix (h : Str) : Str := h.take 10

/-- The run-wide inputs read once at run start: the compiled
configuration, the scanned-detection thresholds, and the persisted
review-override map. -/
structure RunEnv where
  config : CompiledScheduleConfig
  scanThresholds : ScannedDetectionThresholds
  reviewOverrides : List (Str × Str)

/-- `reviewOverrides[hash]` followed by the `if (overrideSchedule)`
truthiness test (an empty-string override is falsy and skipped). -/
def overrideFor (overrides : List (Str × Str)) (hash : Str) : Option Str :=
  match assocGet overrides hash with
  | some s => if s.isEmpty then none else some s
  | none => none

/-- The tail of the worker after text extraction: `classifyDocument` plus
the construction of the processed entry.  When `classifyDocument` throws
(`none`), the worker's outer `catch` produces the `processing_error`
entry with the synthetic `error-<index>` hash and does not register the
digest in `seenHashes`. -/
def finishClassify (env : RunEnv) (doc : DocInput) (index : Nat)
    (pdfMetrics : Option PdfTextResult) (text : Str)
    (seen : List (Str × ProcessedFile)) : ProcessedFile × List (Str × ProcessedFile) :=
  let hash := doc.hash
  match classifyDocument { filename := doc.name, text := text, isPdf := isPdfFile doc.name,
                           config := env.config, pdfMetrics := pdfMetrics,
                           scannedThresholds := env.scanThresholds } with
  | some classification =>
    let entry : ProcessedFile :=
      { name := doc.name, relativePath := doc.relativePath, size := doc.size,
        ftype := doc.ftype, hash := hash, hashPrefix := getHashPrefix hash,
        decision := match classification.decision with
          | .assigned => .assigned
          | .review => .review,
        schedule := classification.schedule, candidate := classification.candidate,
        reason := classification.reason, score := classification.score,
        outputPath := [], scores := classification.scores, pdfMetrics := pdfMetrics,
        textSample := match classification.decision with
          | .review => some (text.take 200)
          | .assigned => none }
    (entry, assocSet seen hash entry)
  | none =>
    let fallbackHash := str "error-" ++ natToStr index
    ({ name := doc.name, relativePath := doc.relativePath, size := doc.size,
       ftype := doc.ftype, hash := fallbackHash,
       hashPrefix := getHashPrefix fallbackHash, decision := .review,
       candidate := some (str "Unknown"),
       reason := str "processing_error: TypeError", score := 0,
       outputPath := [], scores := [] }, seen)

/-- First atomic segment of the worker: digest, duplicate check, override
short-circuit, and — for non-PDFs — classification; `none` means the
worker suspends at `await extractPdfText`. -/
def runStep1 (env : RunEnv) (doc : DocInput) (index : Nat)
    (seen : List (Str × ProcessedFile)) :
    Option (ProcessedFile × List (Str × ProcessedFile)) :=
  let hash := doc.hash
  let hashPrefix := getHashPrefix hash
  match assocGet seen hash with
  | some duplicate =>
    some ({ name := doc.name, relativePath := doc.relativePath, size := doc.size,
            ftype := doc.ftype, hash := hash, hashPrefix := hashPrefix,
            decision := .duplicate, schedule := duplicate.schedule,
            candidate := duplicate.candidate, reason := str "sha256_duplicate",
            score := duplicate.score, outputPath := [],
            scores := duplicate.scores }, seen)
  | none =>
    match overrideFor env.reviewOverrides hash with
    | some overrideSchedule =>
      let entry : ProcessedFile :=
        { name := doc.name, relativePath := doc.relativePath, size := doc.size,
          ftype := doc.ftype, hash := hash, hashPrefix := hashPrefix,
          decision := .assigned, schedule := some overrideSchedule,
          reason := str "review_override", score := SCORE_FLOOR, outputPath := [],
          scores := buildScores env.config.schedules
            (fun s => if s.id = overrideSchedule then SCORE_FLOOR else 0),
          overrideApplied := true }
      some (entry, assocSet seen hash entry)
    | none =>
      if isPdfFile doc.name then none
      else some (finishClassify env doc index none [] seen)

/-- Second atomic segment, resuming after `await extractPdfText`: parse
failure yields the `pdf_parse_error` review entry (registered in
`seenHashes`), success classifies the extracted text. -/
def runStep2 (env : RunEnv) (doc : DocInput) (index : Nat)
    (seen : List (Str × ProcessedFile)) : ProcessedFile × List (Str × ProcessedFile) :=
  let hash := doc.hash
  match doc.extract with
  | .error errmsg =>
    let entry : ProcessedFile :=
      { name := doc.name, relativePath := doc.relativePath, size := doc.size,
        ftype := doc.ftype, hash := hash, hashPrefix := getHashPrefix hash,
        decision := .review, candidate := some (str "Unknown"),
        reason := str "pdf_parse_error: " ++ errmsg, score := 0, outputPath := [],
        scores := [] }
    (entry, assocSet seen hash entry)
  | .ok metrics => finishClassify env doc index (some metrics) metrics.text seen

inductive TaskPc where
  | notStarted
  | awaitingExtract
  | finished
deriving DecidableEq

structure PoolState where
  seen : List (Str × ProcessedFile)
  processed : List ProcessedFile
  tasks : List TaskPc

/-- Advances task `i` by one atomic segment. -/
def stepTask (env : RunEnv) (docs : List DocInput) (st : PoolState) (i : Nat) : PoolState :=
  match docs.get? i, st.tasks.get? i with
  | some doc, some .notStarted =>
    (match runStep1 env doc i st.seen with
     | some result =>
       { seen := result.2, processed := st.processed ++ [result.1],
         tasks := st.tasks.set i .finished }
     | none => { st with tasks := st.tasks.set i .awaitingExtract })
  | some doc, some .awaitingExtract =>
    let result := runStep2 env doc i st.seen
    { seen := result.2, processed := st.processed ++ [result.1],
      tasks := st.tasks.set i .finished }
  | _, _ => st

def initPool (docs : List DocInput) : PoolState :=
  { seen := [], processed := [], tasks := docs.map (fun _ => TaskPc.notStarted) }

/-- Runs the pipeline under a given interleaving of task segments. -/
def runSched (env : RunEnv) (docs : List DocInput) (sched : List Nat) : PoolState :=
  sched.foldl (stepTask env docs) (initPool docs)

/-- The strictly sequential schedule: each document runs both of its
segments to completion before the next starts (concurrency 1). -/
def seqSched (docs : List DocInput) : List Nat :=
  (List.range docs.length).flatMap (fun i => [i, i])

/-- Full pipeline output for a schedule: the accumulated processed list
followed by the single output-path assignment pass. -/
def pipelineOutputs (env : RunEnv) (docs : List DocInput) (sched : List Nat) :
    List ProcessedFile :=
  assignOutputPaths (runSched env docs sched).processed

/-! Configuration validation (`validateScheduleConfig` of
`scheduleConfig.ts`).  The raw input has TS type `unknown`, embedded as a
JS value tree.  JS numbers are collapsed to integers plus the three
non-finite values, which separates exactly the classes the validator's
`typeof`/`Number.isNaN` checks can see.  `new RegExp(pattern, 'i')` is
embedded as an oracle `regexCheck` returning `none` when the pattern
compiles and the thrown error's display string otherwise.  `Except Unit`
models exceptions: `.error ()` is an uncaught `TypeError`. -/

inductive JsNum where
  | fin (x : Int)
  | inf
  | negInf
  | nan
deriving DecidableEq

inductive JsVal where
  | vUndefined
  | vNull
  | vBool (b : Bool)
  | vNum (n : JsNum)
  | vStr (s : Str)
  | vArr (xs : List JsVal)
  | vObj (fields : List (Str × JsVal))

/-- JS truthiness. -/
def truthy : JsVal → Bool
  | .vUndefined => false
  | .vNull => false
  | .vBool b => b
  | .vNum (.fin x) => decide (x ≠ 0)
  | .vNum .nan => false
  | .vNum .inf => true
  | .vNum .negInf => true
  | .vStr s => !(s.isEmpty)
  | .vArr _ => true
  | .vObj _ => true

/-- `typeof v === 'object'` (true for `null`, arrays and plain objects). -/
def isObjectType : JsVal → Bool
  | .vNull => true
  | .vArr _ => true
  | .vObj _ => true
  | _ => false

/-- Property read on a value known not to be `null`/`undefined`:
objects look the key up, everything else (including arrays, whose
element slots are not named fields here) yields `undefined`. -/
def getField : JsVal → Str → JsVal
  | .vObj fields, k => ((fields.find? (fun p => decide (p.1 = k))).map Prod.snd).getD .vUndefined
  | _, _ => .vUndefined

/-- Property read that can throw: reading a property of `null` or
`undefined` is a `TypeError`. -/
def jsGetMember (v : JsVal) (k : Str) : Except Unit JsVal :=
  match v with
  | .vUndefined => .error ()
  | .vNull => .error ()
  | _ => .ok (getField v k)

/-- The `??` operator. -/
def jsNullish (v d : JsVal) : JsVal :=
  match v with
  | .vUndefined => d
  | .vNull => d
  | _ => v

/-- `Array.isArray`. -/
def isArr : JsVal → Bool
  | .vArr _ => true
  | _ => false

/-- `Array.isArray(v) ? v : []` as a list of elements. -/
def asArr : JsVal → List JsVal
  | .vArr xs => xs
  | _ => []

/-- Calling `.entries()` and iterating: defined for arrays, a `TypeError`
on any other value (numbers, strings, booleans and plain objects have no
callable `entries` member). -/
def jsEntriesArr : JsVal → Except Unit (List JsVal)
  | .vArr xs => .ok xs
  | _ => .error ()

/-- `typeof v === 'string'`. -/
def isStr : JsVal → Bool
  | .vStr _ => true
  | _ => false

/-- `typeof v === 'string' && v` (a non-empty string). -/
def isNonEmptyStr : JsVal → Bool
  | .vStr s => !(s.isEmpty)
  | _ => false

/-- `typeof v === 'number' && !Number.isNaN(v)`.  Note that the two
infinities satisfy this check. -/
def isNonNanNum : JsVal → Bool
  | .vNum .nan => false
  | .vNum _ => true
  | _ => false

mutual

/-- String conversion of a JS value as a template literal performs it
(`Array.prototype.toString` joins element displays with commas, with
`null`/`undefined` elements displayed as empty). -/
def jsDisplay : JsVal → Str
  | .vUndefined => str "undefined"
  | .vNull => str "null"
  | .vBool true => str "true"
  | .vBool false => str "false"
  | .vNum (.fin x) => intToStr x
  | .vNum .inf => str "Infinity"
  | .vNum .negInf => str "-Infinity"
  | .vNum .nan => str "NaN"
  | .vStr s => s
  | .vArr xs => jsDisplayList xs
  | .vObj _ => str "[object Object]"

/-- Comma join of array element displays. -/
def jsDisplayList : List JsVal → Str
  | [] => []
  | [x] =>
    (match x with
     | .vUndefined => []
     | .vNull => []
     | v => jsDisplay v)
  | x :: y :: rest =>
    (match x with
     | .vUndefined => []
     | .vNull => []
     | v => jsDisplay v) ++ ',' :: jsDisplayList (y :: rest)
end

/-- The `for (const [termIndex, keyword] of ...)` loop over one
keyword/smallTerm list.  Reading `keyword.term` on a `null`/`undefined`
entry throws. -/
def validateTermList (kind dispId : Str) : List JsVal → Nat → Except Unit (List Str)
  | [], _ => .ok []
  | keyword :: rest, termIndex => do
    let term ← jsGetMember keyword (str "term")
    let weight ← jsGetMember keyword (str "weight")
    let e1 : List Str :=
      if !(isStr term) then
        [str "Schedule \"" ++ dispId ++ str "\" " ++ kind ++ str " " ++
          natToStr termIndex ++ str " term must be a string."]
      else []
    let e2 : List Str :=
      if !(isNonNanNum weight) then
        [str "Schedule \"" ++ dispId ++ str "\" " ++ kind ++ str " " ++
          natToStr termIndex ++ str " weight must be a number."]
      else []
    let more ← validateTermList kind dispId rest (termIndex + 1)
    .ok (e1 ++ e2 ++ more)

/-- The `for (const [index, schedule] of schedules.entries())` loop. -/
def validateSchedules : List JsVal → Nat → Except Unit (List Str)
  | [], _ => .ok []
  | schedule :: rest, index =>
    if !(truthy schedule) || !(isObjectType schedule) then do
      let more ← validateSchedules rest (index + 1)
      .ok ((str "Schedule at index " ++ natToStr index ++ str " must be an object.") :: more)
    else do
      let dispId := jsDisplay (getField schedule (str "id"))
      let e1 : List Str :=
        if !(isNonEmptyStr (getField schedule (str "id"))) then
          [str "Schedule at index " ++ natToStr index ++ str " is missing a valid id."]
        else []
      let e2 : List Str :=
        if !(isNonEmptyStr (getField schedule (str "label"))) then
          [str "Schedule at index " ++ natToStr index ++ str " is missing a valid label."]
        else []
      let e3 : List Str :=
        if !(isArr (getField schedule (str "keywords"))) then
          [str "Schedule \"" ++ dispId ++ str "\" keywords must be an array."]
        else []
      let e4 : List Str :=
        if !(isArr (getField schedule (str "smallTerms"))) then
          [str "Schedule \"" ++ dispId ++ str "\" smallTerms must be an array."]
        else []
      let kwEntries ← jsEntriesArr (jsNullish (getField schedule (str "keywords")) (.vArr []))
      let e5 ← validateTermList (str "keyword") dispId kwEntries 0
      let stEntries ← jsEntriesArr (jsNullish (getField schedule (str "smallTerms")) (.vArr []))
      let e6 ← validateTermList (str "smallTerm") dispId stEntries 0
      let more ← validateSchedules rest (index + 1)
      .ok (e1 ++ e2 ++ e3 ++ e4 ++ e5 ++ e6 ++ more)

/-- The pattern checks of one filename rule: a non-string or empty
pattern is reported as such, a nonempty string pattern is compiled and a
compilation error reported. -/
def rulePatternErrors (regexCheck : Str → Option Str) (index : Nat) : JsVal → List Str
  | .vStr s =>
    if s.isEmpty then
      [str "Filename rule at index " ++ natToStr index ++ str " pattern must be a string."]
    else
      match regexCheck s with
      | some errDisplay =>
        [str "Filename rule \"" ++ s ++ str "\" is not a valid regex: " ++ errDisplay]
      | none => []
  | _ => [str "Filename rule at index " ++ natToStr index ++ str " pattern must be a string."]

/-- The `for (const [index, rule] of filenameRules.entries())` loop. -/
def validateRules (regexCheck : Str → Option Str) : List JsVal → Nat → Except Unit (List Str)
  | [], _ => .ok []
  | rule :: rest, index =>
    if !(truthy rule) || !(isObjectType rule) then do
      let more ← validateRules regexCheck rest (index + 1)
      .ok ((str "Filename rule at index " ++ natToStr index ++ str " must be an object.") :: more)
    else do
      let e1 : List Str := rulePatternErrors regexCheck index (getField rule (str "pattern"))
      let e2 : List Str :=
        if !(isNonEmptyStr (getField rule (str "schedule"))) then
          [str "Filename rule at index " ++ natToStr index ++ str " schedule must be a string."]
        else []
      let more ← validateRules regexCheck rest (index + 1)
      .ok (e1 ++ e2 ++ more)

/-- `validateScheduleConfig` of `scheduleConfig.ts`. -/
def validateScheduleConfig (regexCheck : Str → Option Str) (raw : JsVal) :
    Except Unit (Option JsVal × List Str) :=
  if !(truthy raw) || !(isObjectType raw) then .ok (none, [str "Config must be an object."])
  else do
    let e1 : List Str :=
      if !(isArr (getField raw (str "schedules"))) then [str "Config.schedules must be an array."]
      else []
    let e2 : List Str :=
      if !(isArr (getField raw (str "filenameRules"))) then
        [str "Config.filenameRules must be an array."]
      else []
    let schedules := asArr (getField raw (str "schedules"))
    let filenameRules := asArr (getField raw (str "filenameRules"))
    let e3 ← validateSchedules schedules 0
    let e4 ← validateRules regexCheck filenameRules 0
    let errors := e1 ++ e2 ++ e3 ++ e4
    if errors.length > 0 then .ok (none, errors) else .ok (some raw, [])

/-- One keyword or small-term entry passes the per-term checks the code
performs: a string `term` and a non-NaN `weight` (the infinities pass). -/
def termOkB (keyword : JsVal) : Bool :=
  isStr (getField keyword (str "term")) && isNonNanNum (getField keyword (str "weight"))

/-- One schedule entry passes all per-schedule checks the code performs. -/
def scheduleOkB (schedule : JsVal) : Bool :=
  truthy schedule && isObjectType schedule &&
  isNonEmptyStr (getField schedule (str "id")) &&
  isNonEmptyStr (getField schedule (str "label")) &&
  isArr (getField schedule (str "keywords")) &&
  isArr (getField schedule (str "smallTerms")) &&
  (asArr (getField schedule (str "keywords"))).all termOkB &&
  (asArr (getField schedule (str "smallTerms"))).all termOkB

/-- One filename-rule entry passes all per-rule checks the code
performs: an object with a nonempty string pattern that compiles and a
nonempty string schedule. -/
def ruleOkB (regexCheck : Str → Option Str) (rule : JsVal) : Bool :=
  truthy rule && isObjectType rule &&
  isNonEmptyStr (getField rule (str "pattern")) &&
  (match getField rule (str "pattern") with
   | .vStr s => (regexCheck s).isNone
   | _ => false) &&
  isNonEmptyStr (getField rule (str "schedule"))

/-- The conjunction of all structural checks of `validateScheduleConfig`
(the checks the code actually performs: a weight must be a non-NaN
number, which admits the infinities). -/
def wellFormedConfig (regexCheck : Str → Option Str) (raw : JsVal) : Bool :=
  truthy raw && isObjectType raw &&
  isArr (getField raw (str "schedules")) && isArr (getField raw (str "filenameRules")) &&
  (asArr (getField raw (str "schedules"))).all scheduleOkB &&
  (asArr (getField raw (str "filenameRules"))).all (ruleOkB regexCheck)

/-- A raw configuration value that passes every check: one schedule with
one finite-weight keyword and one filename rule. -/
def rawCfgOk : JsVal :=
  .vObj [(str "schedules", .vArr [.vObj [
      (str "id", .vStr (str "A_Real_Estate")),
      (str "label", .vStr (str "Schedule A")),
      (str "keywords", .vArr [.vObj [
        (str "term", .vStr (str "deed")),
        (str "weight", .vNum (.fin 10))]]),
      (str "smallTerms", .vArr [])]]),
    (str "filenameRules", .vArr [.vObj [
      (str "pattern", .vStr (str "deed")),
      (str "schedule", .vStr (str "A_Real_Estate"))]])]

/-- A raw configuration value identical to `rawCfgOk` except that the
keyword weight is `Infinity`, which is a number and not NaN. -/
def rawCfgInf : JsVal :=
  .vObj [(str "schedules", .vArr [.vObj [
      (str "id", .vStr (str "A_Real_Estate")),
      (str "label", .vStr (str "Schedule A")),
      (str "keywords", .vArr [.vObj [
        (str "term", .vStr (str "deed")),
        (str "weight", .vNum .inf)]]),
      (str "smallTerms", .vArr [])]]),
    (str "filenameRules", .vArr [])]

/-- A raw configuration value whose schedule has the number `5` as its
`keywords` field: the validator records the array error and then calls
`(5).entries()`, a `TypeError`. -/
def rawCfgThrow : JsVal :=
  .vObj [(str "schedules", .vArr [.vObj [
      (str "id", .vStr (str "A_Real_Estate")),
      (str "label", .vStr (str "Schedule A")),
      (str "keywords", .vNum (.fin 5)),
      (str "smallTerms", .vArr [])]]),
    (str "filenameRules", .vArr [])]

/-! Specification-side definitions: reformulations of quantities the spec
describes in its own terms (top category with declaration-order
tie-break, runner-up score), to be proved equal to what the code
computes. -/

/-- The first entry attaining the maximal score, scanning in declaration
order: the spec's "rank by score descending, ties resolved by
declaration order" top element. -/
def firstMax : List (Str × Int) → Option (Str × Int)
  | [] => none
  | x :: xs =>
    match firstMax xs with
    | none => some x
    | some y => if x.2 ≥ y.2 then some x else some y

/-- Maximum of an integer list, with a default for the empty list. -/
def listMaxD (d : Int) : List Int → Int
  | [] => d
  | x :: xs => xs.foldl max x

/-- The per-category score entries in declaration order, as the spec
describes them. -/
def specEntries (o : ClassifyOptions) : List (Str × Int) :=
  o.config.schedules.map (fun s => (s.id, scoreSchedule o.text s))

/-- The spec's "best" score: the score of the top-ranked category. -/
def specBest (entries : List (Str × Int)) : Int :=
  match firstMax entries with
  | some e => e.2
  | none => 0

/-- The spec's "runner-up" score: the second score after ranking, i.e.
the maximum after removing one copy of the best score (0 when only one
category exists). -/
def specRunnerUp (entries : List (Str × Int)) : Int :=
  listMaxD 0 ((entries.map Prod.snd).erase (specBest entries))

/-! Concrete inputs used by witnesses and counterexamples. -/

/-- A compiled rule whose matcher accepts every filename (e.g. the
compiled form of an empty pattern), targeting schedule A. -/
def ruleAll : FilenameRule := { pattern := fun _ => true, schedule := str "A_Real_Estate" }

/-- A two-category configuration with one catch-all filename rule. -/
def cfgTwo : CompiledScheduleConfig :=
  { schedules :=
      [{ id := str "A_Real_Estate", label := str "Schedule A",
         keywords := [{ term := str "deed", weight := 10 }],
         smallTerms := [{ term := str "parcel", weight := 2 }] },
       { id := str "B_Stocks_Bonds", label := str "Schedule B",
         keywords := [{ term := str "stock", weight := 8 }],
         smallTerms := [] }],
    filenameRules := [ruleAll] }

/-- The same two categories with no filename rules. -/
def cfgTwoNoRules : CompiledScheduleConfig :=
  { schedules := cfgTwo.schedules, filenameRules := [] }

def thresholdsDefault : ScannedDetectionThresholds := { minChars := 250, minTextItems := 30 }

/-- A one-category configuration with no keywords and no rules. -/
def cfgOne : CompiledScheduleConfig :=
  { schedules := [{ id := str "A_Real_Estate", label := str "Schedule A",
                    keywords := [], smallTerms := [] }],
    filenameRules := [] }

/-- A concrete classification input: `deed.pdf` under the catch-all rule
of `cfgTwo`, with a text that scores for schedule B. -/
def optsC1 : ClassifyOptions :=
  { filename := str "deed.pdf", text := str "stock stock stock", isPdf := false,
    config := cfgTwo, pdfMetrics := none, scannedThresholds := thresholdsDefault }

/-- A degenerate classification input: no categories configured, no
filename rules, non-empty text. -/
def optsNoCategories : ClassifyOptions :=
  { filename := str "a.txt", text := str "hello", isPdf := false,
    config := { schedules := [], filenameRules := [] }, pdfMetrics := none,
    scannedThresholds := thresholdsDefault }

/-- An empty-text non-PDF input over the one-category configuration. -/
def optsEmptyText : ClassifyOptions :=
  { filename := str "notes.txt", text := str "", isPdf := false,
    config := cfgOne, pdfMetrics := none, scannedThresholds := thresholdsDefault }

/-- A PDF whose sampled text layer is far below the thresholds but whose
filename matches the catch-all rule of `cfgTwo`. -/
def optsScannedButRuled : ClassifyOptions :=
  { filename := str "deed.pdf", text := str "", isPdf := true, config := cfgTwo,
    pdfMetrics := some { text := [], numPages := 1, pagesSampled := 1, chars := 0,
                         textItems := 0 },
    scannedThresholds := thresholdsDefault }

/-- A ruleless low-text PDF input for the C4 witness. -/
def optsScannedNoRule : ClassifyOptions :=
  { filename := str "scan0001.pdf", text := str "", isPdf := true,
    config := cfgTwoNoRules,
    pdfMetrics := some { text := [], numPages := 4, pagesSampled := 4, chars := 17,
                         textItems := 4 },
    scannedThresholds := thresholdsDefault }

/-- A keyword-scoring input: two categories, no rules, text scoring
22 for schedule A and 0 for schedule B. -/
def optsKeyword : ClassifyOptions :=
  { filename := str "statement.txt", text := str "deed deed parcel", isPdf := false,
    config := cfgTwoNoRules, pdfMetrics := none, scannedThresholds := thresholdsDefault }

/-- The filename component `assignOutputPaths` extracts for one file. -/
def assignFilename (f : ProcessedFile) : Str :=
  (splitOnChar '/' (buildBaseOutputPath f)).getLast?.getD f.name

/-- The directory component `assignOutputPaths` extracts for one file. -/
def assignDir (f : ProcessedFile) : Str :=
  joinChar '/' ((splitOnChar '/' (buildBaseOutputPath f)).dropLast)

/-- The unique-name/updated-set pair computed for one file. -/
def assignStep (m : List (Str × List Str)) (f : ProcessedFile) : Str × List Str :=
  ensureUniqueFilename (assignFilename f) ((assocGet m (assignDir f)).getD [])

/-- A processed entry used by the C7 witness (three identical names
colliding inside folder `706/A_Real_Estate`). -/
def pfDupSample : ProcessedFile :=
  { name := str "a.pdf", relativePath := str "x/a.pdf", size := 1,
    ftype := str "application/pdf", hash := str "h1", hashPrefix := str "h1prefix9x",
    decision := .assigned, schedule := some (str "A_Real_Estate"),
    reason := str "filename_rule", score := 18, outputPath := [], scores := [] }

/-- A one-category run environment with no overrides. -/
def envOne : RunEnv :=
  { config := cfgOne, scanThresholds := thresholdsDefault, reviewOverrides := [] }

/-- A non-PDF image document with digest `h1`. -/
def imgDoc1 : DocInput :=
  { name := str "a.png", relativePath := str "a.png", size := 1,
    ftype := str "image/png", hash := str "h1", extract := .error (str "not used") }

/-- A byte-identical copy of `imgDoc1` under another name. -/
def imgDoc2 : DocInput :=
  { name := str "b.png", relativePath := str "b.png", size := 1,
    ftype := str "image/png", hash := str "h1", extract := .error (str "not used") }

/-- A PDF document with digest `hpdf` whose extraction succeeds with a
healthy text layer. -/
def pdfDoc1 : DocInput :=
  { name := str "a.pdf", relativePath := str "a.pdf", size := 9,
    ftype := str "application/pdf", hash := str "hpdf",
    extract := .ok { text := str "some words here", numPages := 1, pagesSampled := 1,
                     chars := 300, textItems := 40 } }

/-- A byte-identical copy of `pdfDoc1` under another name. -/
def pdfDoc2 : DocInput :=
  { name := str "b.pdf", relativePath := str "b.pdf", size := 9,
    ftype := str "application/pdf", hash := str "hpdf",
    extract := .ok { text := str "some words here", numPages := 1, pagesSampled := 1,
                     chars := 300, textItems := 40 } }

/-! Helper lemmas about the score record and the rule loop. -/

theorem keys_recordSet (r : List (Str × Int)) (k : Str) (v : Int) :
    (recordSet r k v).map Prod.fst =
      if r.any (fun p => p.1 = k) then r.map Prod.fst else r.map Prod.fst ++ [k] := by
  unfold recordSet
  split
  · rw [List.map_map]
    refine List.map_congr_left (fun p _ => ?_)
    by_cases h : p.1 = k <;> simp [h]
  · simp

theorem recordSet_val_keyed (g : Str → Int) (k : Str) (acc : List (Str × Int))
    (h : ∀ p ∈ acc, p.2 = g p.1) : ∀ p ∈ recordSet acc k (g k), p.2 = g p.1 := by
  intro p hp
  unfold recordSet at hp
  split at hp
  · obtain ⟨q, hq, hpq⟩ := List.mem_map.mp hp
    by_cases hqk : q.1 = k
    · simp only [hqk, if_pos] at hpq
      subst hpq; simp
    · simp only [hqk, if_neg, not_false_iff] at hpq
      subst hpq; exact h q hq
  · rcases List.mem_append.mp hp with hmem | hmem
    · exact h p hmem
    · simp only [List.mem_singleton] at hmem
      subst hmem; simp

theorem mem_keys_scoresFold (f : ScheduleDefinition → Int) (c : Str)
    (ss : List ScheduleDefinition) :
    ∀ acc : List (Str × Int),
      (c ∈ (ss.foldl (fun r s => recordSet r s.id (f s)) acc).map Prod.fst ↔
        c ∈ acc.map Prod.fst ∨ c ∈ ss.map (fun s => s.id)) := by
  induction ss with
  | nil => intro acc; simp
  | cons s ss ih =>
    intro acc
    simp only [List.foldl_cons, List.map_cons, List.mem_cons]
    rw [ih (recordSet acc s.id (f s)), keys_recordSet]
    split
    · rename_i hany
      have hmem : s.id ∈ acc.map Prod.fst := by
        obtain ⟨p, hp, hpk⟩ := List.any_eq_true.mp hany
        simp only [decide_eq_true_eq] at hpk
        exact hpk ▸ List.mem_map_of_mem Prod.fst hp
      constructor
      · rintro (h | h)
        exacts [Or.inl h, Or.inr (Or.inr h)]
      · rintro (h | rfl | h)
        exacts [Or.inl h, Or.inl hmem, Or.inr h]
    · simp only [List.mem_append, List.mem_singleton]
      constructor
      · rintro ((h | h) | h)
        exacts [Or.inl h, Or.inr (Or.inl h), Or.inr (Or.inr h)]
      · rintro (h | h | h)
        exacts [Or.inl (Or.inl h), Or.inl (Or.inr h), Or.inr h]

theorem mem_keys_buildScores (f : ScheduleDefinition → Int) (c : Str)
    (ss : List ScheduleDefinition) :
    c ∈ (buildScores ss f).map Prod.fst ↔ c ∈ ss.map (fun s => s.id) := by
  have := mem_keys_scoresFold f c ss []
  simpa [buildScores] using this

theorem val_buildScores_keyed (g : Str → Int) (ss : List ScheduleDefinition) :
    ∀ p ∈ buildScores ss (fun s => g s.id), p.2 = g p.1 := by
  suffices h : ∀ acc : List (Str × Int), (∀ p ∈ acc, p.2 = g p.1) →
      ∀ p ∈ ss.foldl (fun r s => recordSet r s.id (g s.id)) acc, p.2 = g p.1 by
    exact h [] (by simp)
  induction ss with
  | nil => intro acc hacc; simpa using hacc
  | cons s ss ih =>
    intro acc hacc
    simp only [List.foldl_cons]
    exact ih (recordSet acc s.id (g s.id)) (recordSet_val_keyed g s.id acc hacc)

theorem recordSet_fresh (r : List (Str × Int)) (k : Str) (v : Int)
    (h : ∀ p ∈ r, p.1 ≠ k) : recordSet r k v = r ++ [(k, v)] := by
  have hany : r.any (fun p => p.1 = k) = false := by
    rw [List.any_eq_false]
    intro p hp
    simpa using h p hp
  unfold recordSet
  simp [hany]

theorem scoresFold_eq_map (f : ScheduleDefinition → Int) (ss : List ScheduleDefinition) :
    ∀ acc : List (Str × Int), (∀ p ∈ acc, p.1 ∉ ss.map (fun s => s.id)) →
      (ss.map (fun s => s.id)).Nodup →
      ss.foldl (fun r s => recordSet r s.id (f s)) acc =
        acc ++ ss.map (fun s => (s.id, f s)) := by
  induction ss with
  | nil => intro acc _ _; simp
  | cons s ss ih =>
    intro acc hacc hnd
    simp only [List.map_cons, List.nodup_cons] at hnd
    simp only [List.foldl_cons]
    have hfresh : recordSet acc s.id (f s) = acc ++ [(s.id, f s)] := by
      refine recordSet_fresh acc s.id (f s) (fun p hp hk => ?_)
      exact hacc p hp (by simp [hk])
    rw [hfresh, ih (acc ++ [(s.id, f s)]) ?_ hnd.2, List.append_assoc]
    · simp
    · intro p hp
      rcases List.mem_append.mp hp with hmem | hmem
      · exact fun hin => hacc p hmem (by simp [hin])
      · simp only [List.mem_singleton] at hmem
        subst hmem
        simpa using hnd.1

theorem buildScores_eq_map (f : ScheduleDefinition → Int) (ss : List ScheduleDefinition)
    (hnd : (ss.map (fun s => s.id)).Nodup) :
    buildScores ss f = ss.map (fun s => (s.id, f s)) := by
  have := scoresFold_eq_map f ss [] (by simp) hnd
  simpa [buildScores] using this

theorem findRule_eq_filter_head (rules : List FilenameRule) (fn : Str) :
    findRule rules fn =
      ((rules.filter (fun r => r.pattern fn)).head?).map (fun r => r.schedule) := by
  induction rules with
  | nil => rfl
  | cons r rs ih =>
    by_cases h : r.pattern fn
    · simp [findRule, List.filter_cons, h]
    · simp [findRule, List.filter_cons, h, ih]

/-- Claim C1: when the normalized filename matches a compiled filename
rule — the rules tested in declaration order, `r₀` being the first match —
`classifyDocument` returns decision `assigned` with the rule's target
category, reason `filename_rule`, score `SCORE_FLOOR`, a score vector
whose keys are exactly the configured category ids mapping the matched
category to `SCORE_FLOOR` and every other configured category to 0, and
the result does not depend on the document text. -/
theorem claim_C1 (o : ClassifyOptions) (r₀ : FilenameRule)
    (hmatch : (o.config.filenameRules.filter
      (fun r => r.pattern (normalizeText o.filename))).head? = some r₀) :
    ∃ res, classifyDocument o = some res ∧
      res.decision = .assigned ∧
      res.schedule = some r₀.schedule ∧
      res.candidate = none ∧
      res.reason = str "filename_rule" ∧
      res.score = SCORE_FLOOR ∧
      (∀ c, c ∈ res.scores.map Prod.fst ↔ c ∈ o.config.schedules.map (fun s => s.id)) ∧
      (∀ p ∈ res.scores, p.2 = if p.1 = r₀.schedule then SCORE_FLOOR else 0) ∧
      (∀ t, classifyDocument { o with text := t } = classifyDocument o) := by
  have happ : applyFilenameRules (normalizeText o.filename) o.config = some r₀.schedule := by
    rw [applyFilenameRules, findRule_eq_filter_head, hmatch]
    rfl
  have hcd : classifyDocument o = some
      { decision := .assigned, schedule := some r₀.schedule,
        reason := str "filename_rule", score := SCORE_FLOOR,
        scores := buildScores o.config.schedules
          (fun s => if s.id = r₀.schedule then SCORE_FLOOR else 0) } := by
    simp only [classifyDocument, happ]
  refine ⟨_, hcd, rfl, rfl, rfl, rfl, rfl, ?_, ?_, ?_⟩
  · exact fun c => mem_keys_buildScores _ c o.config.schedules
  · exact val_buildScores_keyed (fun c => if c = r₀.schedule then SCORE_FLOOR else 0)
      o.config.schedules
  · intro t
    have hcd2 : classifyDocument { o with text := t } = some
        { decision := .assigned, schedule := some r₀.schedule,
          reason := str "filename_rule", score := SCORE_FLOOR,
          scores := buildScores o.config.schedules
            (fun s => if s.id = r₀.schedule then SCORE_FLOOR else 0) } := by
      simp only [classifyDocument, happ]
    rw [hcd, hcd2]
  -- (the filename branch reads neither the text nor the PDF metrics)

/-- Witness for C1: the catch-all rule assigns `optsC1` to schedule A
with the floor score, regardless of its stock-scoring text. -/
theorem claim_C1_witness :
    ∃ res, classifyDocument optsC1 = some res ∧
      res.decision = .assigned ∧
      res.schedule = some (str "A_Real_Estate") ∧
      res.candidate = none ∧
      res.reason = str "filename_rule" ∧
      res.score = SCORE_FLOOR ∧
      (∀ c, c ∈ res.scores.map Prod.fst ↔
        c ∈ optsC1.config.schedules.map (fun s => s.id)) ∧
      (∀ p ∈ res.scores, p.2 = if p.1 = ruleAll.schedule then SCORE_FLOOR else 0) ∧
      (∀ t, classifyDocument { optsC1 with text := t } = classifyDocument optsC1) :=
  claim_C1 optsC1 ruleAll rfl

/-- Claim C2 (refuted; the code throws): with no categories configured,
no matching filename rule and non-empty text, the destructuring
`const [bestScheduleId, bestScore] = sorted[0]` destructures `undefined`
and throws a `TypeError` instead of returning a `review` result with
candidate `Unknown` — the `bestScheduleId ?? 'Unknown'` fallback further
down is unreachable.  `none` is the embedded thrown exception. -/
theorem claim_C2_throws_on_empty_config :
    classifyDocument optsNoCategories = none := rfl

/-- Claim C10: every result `classifyDocument` actually returns is
shape-consistent: `assigned` results carry a schedule and no candidate,
`review` results carry a candidate and no schedule. -/
theorem claim_C10 (o : ClassifyOptions) (r : ClassificationResult)
    (h : classifyDocument o = some r) :
    (r.decision = .assigned → r.schedule.isSome ∧ r.candidate = none) ∧
    (r.decision = .review → r.candidate.isSome ∧ r.schedule = none) := by
  have htp : ∀ (o' : ClassifyOptions), classifyTextPhase o' = some r →
      (r.decision = .assigned → r.schedule.isSome ∧ r.candidate = none) ∧
      (r.decision = .review → r.candidate.isSome ∧ r.schedule = none) := by
    intro o' h'
    unfold classifyTextPhase at h'
    split at h'
    · cases h'
      exact ⟨(fun hd => nomatch hd), fun _ => ⟨rfl, rfl⟩⟩
    · simp only at h'
      split at h'
      · cases h'
      · split at h'
        · cases h'
          exact ⟨(fun hd => nomatch hd), fun _ => ⟨rfl, rfl⟩⟩
        · cases h'
          exact ⟨(fun _ => ⟨rfl, rfl⟩), (fun hd => nomatch hd)⟩
  unfold classifyDocument at h
  simp only at h
  split at h
  · cases h
    exact ⟨(fun _ => ⟨rfl, rfl⟩), (fun hd => nomatch hd)⟩
  · split at h
    · split at h
      · cases h
        exact ⟨(fun hd => nomatch hd), fun _ => ⟨rfl, rfl⟩⟩
      · exact htp o h
    · exact htp o h

/-- Witness for C10 at a concrete review outcome. -/
theorem claim_C10_witness :
    ∃ r, classifyDocument optsEmptyText = some r ∧
      ((r.decision = .assigned → r.schedule.isSome ∧ r.candidate = none) ∧
       (r.decision = .review → r.candidate.isSome ∧ r.schedule = none)) :=
  ⟨_, rfl, claim_C10 optsEmptyText _ rfl⟩

/-- Counterexample to C4 as stated: a PDF whose sampled character count
(0) is below the configured minimum (250) is nevertheless not routed to
review — its filename matches a filename rule, and the filename-rule step
precedes the likely-scanned check, so the result is `assigned` with
reason `filename_rule`. -/
theorem claim_C4_counterexample :
    optsScannedButRuled.isPdf = true ∧
    optsScannedButRuled.pdfMetrics.map
      (fun m => decide (m.chars < optsScannedButRuled.scannedThresholds.minChars) &&
        decide (0 < m.pagesSampled)) = some true ∧
    (classifyDocument optsScannedButRuled).map (fun r => r.decision) =
      some ClassificationDecision.assigned ∧
    (classifyDocument optsScannedButRuled).map (fun r => r.reason) =
      some (str "filename_rule") :=
  ⟨rfl, rfl, rfl, rfl⟩

theorem scannedReason_hasPrefix (m : PdfTextResult) :
    (str "likely_scanned_pdf").isPrefixOf (scannedReason m) = true := by
  have hsplit : str "likely_scanned_pdf: low_text_layer (chars=" =
      str "likely_scanned_pdf" ++ str ": low_text_layer (chars=" := by decide
  rw [List.isPrefixOf_iff_prefix]
  refine ⟨str ": low_text_layer (chars=" ++ natToStr m.chars ++ str ", textItems=" ++
    natToStr m.textItems ++ str ", sampled=" ++ natToStr m.pagesSampled ++ str ")", ?_⟩
  unfold scannedReason
  rw [hsplit]
  simp [List.append_assoc]

/-- Claim C4 as amended: for a PDF whose normalized filename matches no
filename rule, with metrics present, at least one page sampled and the
sampled character count below the configured minimum, `classifyDocument`
routes to review with candidate `Unknown`, score 0, all category scores
0, and a reason starting `likely_scanned_pdf` that embeds the observed
chars/textItems/pages-sampled values — regardless of the extracted text,
which no hypothesis constrains. -/
theorem claim_C4_amended (o : ClassifyOptions) (m : PdfTextResult)
    (hnorule : applyFilenameRules (normalizeText o.filename) o.config = none)
    (hpdf : o.isPdf = true)
    (hm : o.pdfMetrics = some m)
    (hpages : 0 < m.pagesSampled)
    (hchars : m.chars < o.scannedThresholds.minChars) :
    ∃ res, classifyDocument o = some res ∧
      res.decision = .review ∧
      res.candidate = some (str "Unknown") ∧
      res.schedule = none ∧
      res.reason = scannedReason m ∧
      (str "likely_scanned_pdf").isPrefixOf res.reason = true ∧
      res.score = 0 ∧
      (∀ c, c ∈ res.scores.map Prod.fst ↔ c ∈ o.config.schedules.map (fun s => s.id)) ∧
      (∀ p ∈ res.scores, p.2 = 0) := by
  have hguard : (o.isPdf && (decide (0 < m.pagesSampled) &&
      (decide (m.chars < o.scannedThresholds.minChars) ||
       decide (m.textItems < o.scannedThresholds.minTextItems)))) = true := by
    rw [hpdf]
    simp [hpages, hchars]
  have hcd : classifyDocument o = some
      { decision := .review, candidate := some (str "Unknown"),
        reason := scannedReason m, score := 0,
        scores := buildScores o.config.schedules (fun _ => 0) } := by
    simp only [classifyDocument, hnorule, hm, hguard, if_true]
  refine ⟨_, hcd, rfl, rfl, rfl, rfl, scannedReason_hasPrefix m, rfl, ?_, ?_⟩
  · exact fun c => mem_keys_buildScores _ c o.config.schedules
  · exact val_buildScores_keyed (fun _ => 0) o.config.schedules

theorem insertDesc_perm (x : Str × Int) (s : List (Str × Int)) :
    List.Perm (insertDesc x s) (x :: s) := by
  induction s with
  | nil => exact List.Perm.refl _
  | cons y ys ih =>
    unfold insertDesc
    split
    · exact List.Perm.refl _
    · exact (ih.cons y).trans (List.Perm.swap x y ys)

theorem sortDesc_perm (l : List (Str × Int)) : List.Perm (sortDesc l) l := by
  induction l with
  | nil => exact List.Perm.refl _
  | cons x xs ih => exact (insertDesc_perm x (sortDesc xs)).trans (ih.cons x)

theorem insertDesc_pairwise (x : Str × Int) (s : List (Str × Int))
    (hs : s.Pairwise (fun a b => a.2 ≥ b.2)) :
    (insertDesc x s).Pairwise (fun a b => a.2 ≥ b.2) := by
  induction s with
  | nil => simp [insertDesc]
  | cons y ys ih =>
    unfold insertDesc
    rw [List.pairwise_cons] at hs
    split
    · rename_i hxy
      refine List.pairwise_cons.mpr ⟨?_, List.pairwise_cons.mpr hs⟩
      intro z hz
      rcases List.mem_cons.mp hz with rfl | hz
      · exact hxy
      · exact le_trans (hs.1 z hz) hxy
    · rename_i hxy
      refine List.pairwise_cons.mpr ⟨?_, ih hs.2⟩
      intro z hz
      rcases List.mem_cons.mp ((insertDesc_perm x ys).mem_iff.mp hz) with rfl | hz2
      · exact le_of_not_le hxy
      · exact hs.1 z hz2

theorem sortDesc_pairwise (l : List (Str × Int)) :
    (sortDesc l).Pairwise (fun a b => a.2 ≥ b.2) := by
  induction l with
  | nil => simp [sortDesc]
  | cons x xs ih => exact insertDesc_pairwise x (sortDesc xs) ih

theorem head?_insertDesc (x : Str × Int) (s : List (Str × Int)) :
    (insertDesc x s).head? = some (match s.head? with
      | none => x
      | some y => if x.2 ≥ y.2 then x else y) := by
  cases s with
  | nil => rfl
  | cons y ys =>
    unfold insertDesc
    split
    · rename_i h
      simp [h]
    · rename_i h
      simp [h]

theorem head?_sortDesc (l : List (Str × Int)) : (sortDesc l).head? = firstMax l := by
  induction l with
  | nil => rfl
  | cons x xs ih =>
    show (insertDesc x (sortDesc xs)).head? = firstMax (x :: xs)
    rw [head?_insertDesc, ih]
    simp only [firstMax]
    cases hfx : firstMax xs with
    | none => rfl
    | some y =>
      by_cases h : x.2 ≥ y.2 <;> simp [h]

theorem firstMax_eq_none_iff (l : List (Str × Int)) : firstMax l = none ↔ l = [] := by
  cases l with
  | nil => simp [firstMax]
  | cons x xs =>
    constructor
    · intro h
      unfold firstMax at h
      cases hx : firstMax xs <;> rw [hx] at h
      · simp at h
      · rename_i y
        by_cases hxy : x.2 ≥ y.2 <;> simp [hxy] at h
    · intro h
      exact absurd h (List.cons_ne_nil x xs)

theorem firstMax_mem (l : List (Str × Int)) :
    ∀ e, firstMax l = some e → e ∈ l := by
  induction l with
  | nil => intro e h; cases h
  | cons x xs ih =>
    intro e h
    unfold firstMax at h
    cases hx : firstMax xs with
    | none =>
      simp only [hx] at h
      cases h
      exact List.mem_cons_self _ _
    | some y =>
      simp only [hx] at h
      by_cases hxy : x.2 ≥ y.2
      · rw [if_pos hxy] at h
        cases h
        exact List.mem_cons_self _ _
      · rw [if_neg hxy] at h
        cases h
        exact List.mem_cons_of_mem x (ih _ hx)

theorem firstMax_ge (l : List (Str × Int)) :
    ∀ e, firstMax l = some e → ∀ p ∈ l, p.2 ≤ e.2 := by
  induction l with
  | nil => intro e h; cases h
  | cons x xs ih =>
    intro e h p hp
    unfold firstMax at h
    cases hx : firstMax xs with
    | none =>
      simp only [hx] at h
      cases h
      have hxs : xs = [] := (firstMax_eq_none_iff xs).mp hx
      subst hxs
      rcases List.mem_cons.mp hp with rfl | hfalse
      · exact le_refl _
      · cases hfalse
    | some y =>
      simp only [hx] at h
      by_cases hxy : x.2 ≥ y.2
      · rw [if_pos hxy] at h
        cases h
        rcases List.mem_cons.mp hp with rfl | hpxs
        · exact le_refl _
        · exact le_trans (ih _ hx p hpxs) hxy
      · rw [if_neg hxy] at h
        cases h
        rcases List.mem_cons.mp hp with rfl | hpxs
        · exact le_of_not_le hxy
        · exact ih _ hx p hpxs

theorem foldl_max_mem (a : Int) (xs : List Int) : xs.foldl max a ∈ a :: xs := by
  induction xs generalizing a with
  | nil => simp
  | cons x xs ih =>
    rw [List.foldl_cons]
    rcases List.mem_cons.mp (ih (max a x)) with hh | hh
    · rcases max_choice a x with hc | hc
      · rw [hh, hc]
        exact List.mem_cons_self _ _
      · rw [hh, hc]
        exact List.mem_cons_of_mem _ (List.mem_cons_self _ _)
    · exact List.mem_cons_of_mem _ (List.mem_cons_of_mem _ hh)

theorem le_foldl_max (a : Int) (xs : List Int) :
    a ≤ xs.foldl max a ∧ ∀ y ∈ xs, y ≤ xs.foldl max a := by
  induction xs generalizing a with
  | nil => exact ⟨le_refl a, by simp⟩
  | cons x xs ih =>
    obtain ⟨h1, h2⟩ := ih (max a x)
    rw [List.foldl_cons]
    refine ⟨le_trans (le_max_left a x) h1, ?_⟩
    intro y hy
    rcases List.mem_cons.mp hy with rfl | hy
    · exact le_trans (le_max_right a y) h1
    · exact h2 y hy

theorem listMaxD_mem (d : Int) (l : List Int) (h : l ≠ []) : listMaxD d l ∈ l := by
  cases l with
  | nil => exact absurd rfl h
  | cons x xs => exact foldl_max_mem x xs

theorem listMaxD_ge (d : Int) (l : List Int) : ∀ y ∈ l, y ≤ listMaxD d l := by
  cases l with
  | nil => simp
  | cons x xs =>
    intro y hy
    rcases List.mem_cons.mp hy with rfl | hy
    · exact (le_foldl_max y xs).1
    · exact (le_foldl_max x xs).2 y hy

/-- Second element of the stable descending sort: the maximum of the
score multiset after removing one copy of the top score. -/
theorem sortDesc_second (l : List (Str × Int)) (e0 e1 : Str × Int)
    (rest : List (Str × Int)) (h : sortDesc l = e0 :: e1 :: rest) :
    e1.2 = listMaxD 0 ((l.map Prod.snd).erase e0.2) := by
  have hperm : List.Perm (e0 :: e1 :: rest) l := h ▸ sortDesc_perm l
  have hpw : (e0 :: e1 :: rest).Pairwise (fun a b => a.2 ≥ b.2) := h ▸ sortDesc_pairwise l
  have hmapperm : List.Perm (e0.2 :: e1.2 :: rest.map Prod.snd) (l.map Prod.snd) := by
    simpa using hperm.map Prod.snd
  have herase : List.Perm ((l.map Prod.snd).erase e0.2) (e1.2 :: rest.map Prod.snd) := by
    have h2 := (hmapperm.symm).erase e0.2
    simpa [List.erase_cons_head] using h2
  have hne : (l.map Prod.snd).erase e0.2 ≠ [] := by
    intro hnil
    rw [hnil] at herase
    simpa using herase.length_eq
  have hmem : listMaxD 0 ((l.map Prod.snd).erase e0.2) ∈ e1.2 :: rest.map Prod.snd :=
    herase.mem_iff.mp (listMaxD_mem 0 _ hne)
  have hge : e1.2 ≤ listMaxD 0 ((l.map Prod.snd).erase e0.2) :=
    listMaxD_ge 0 _ _ (herase.mem_iff.mpr (List.mem_cons_self _ _))
  have hle : listMaxD 0 ((l.map Prod.snd).erase e0.2) ≤ e1.2 := by
    rw [List.pairwise_cons] at hpw
    obtain ⟨-, hpw1⟩ := hpw
    rw [List.pairwise_cons] at hpw1
    rcases List.mem_cons.mp hmem with hh | hh
    · rw [hh]
    · obtain ⟨p, hp, hpv⟩ := List.mem_map.mp hh
      rw [← hpv]
      exact hpw1.1 p hp
  exact le_antisymm hge hle

/-- `addTermScores` is the accumulator plus the sum the spec describes. -/
theorem addTermScores_eq_sum (text : Str) (acc : Int) (terms : List WeightedTerm) :
    addTermScores text acc terms =
      acc + (terms.map (fun t => (countTermOccurrences text t.term : Int) * t.weight)).sum := by
  induction terms generalizing acc with
  | nil => simp [addTermScores]
  | cons t ts ih =>
    simp only [addTermScores, List.foldl_cons] at ih ⊢
    rw [ih (acc + (countTermOccurrences text t.term : Int) * t.weight)]
    simp [List.sum_cons]
    ring

/-- `scoreSchedule` computes the spec's sum over primary keywords plus
small terms of occurrence count times weight. -/
theorem scoreSchedule_eq_sum (text : Str) (s : ScheduleDefinition) :
    scoreSchedule text s =
      ((s.keywords ++ s.smallTerms).map
        (fun t => (countTermOccurrences text t.term : Int) * t.weight)).sum := by
  unfold scoreSchedule
  rw [addTermScores_eq_sum, addTermScores_eq_sum]
  simp [List.sum_append]

/-- Claim C3: with no filename-rule match, the scanned check not firing
and non-empty trimmed text, `classifyDocument` scores every configured
category as the spec's occurrence-times-weight sum, declares `top` the
first category attaining the maximal score in declaration order, and
decides `review`/`low_confidence` when the best score is below 18 or the
margin over the runner-up (the maximum after removing one copy of the
best score; 0 when only one category exists) is below 6, and otherwise
`assigned`/`keyword_score` with score = best. -/
theorem claim_C3 (o : ClassifyOptions)
    (hnorule : applyFilenameRules (normalizeText o.filename) o.config = none)
    (hscan : scannedGuard o = false)
    (htext : trimWs o.text ≠ [])
    (hne : o.config.schedules ≠ [])
    (hnodup : (o.config.schedules.map (fun s => s.id)).Nodup) :
    specEntries o = o.config.schedules.map (fun s => (s.id,
      ((s.keywords ++ s.smallTerms).map
        (fun t => (countTermOccurrences o.text t.term : Int) * t.weight)).sum)) ∧
    ∃ top, firstMax (specEntries o) = some top ∧
      classifyDocument o = some (
        if top.2 < SCORE_FLOOR ∨ top.2 - specRunnerUp (specEntries o) < LOW_CONFIDENCE_MARGIN
        then { decision := .review, candidate := some top.1,
               reason := str "low_confidence", score := top.2, scores := specEntries o }
        else { decision := .assigned, schedule := some top.1,
               reason := str "keyword_score", score := top.2, scores := specEntries o }) := by
  constructor
  · unfold specEntries
    exact List.map_congr_left (fun s _ => by rw [scoreSchedule_eq_sum])
  have hentries : buildScores o.config.schedules (fun s => scoreSchedule o.text s) =
      specEntries o := buildScores_eq_map _ _ hnodup
  have hcd0 : classifyDocument o = classifyTextPhase o := by
    cases hm : o.pdfMetrics with
    | none => simp only [classifyDocument, hnorule, hm]
    | some m =>
      have hguard : (o.isPdf && (decide (0 < m.pagesSampled) &&
          (decide (m.chars < o.scannedThresholds.minChars) ||
           decide (m.textItems < o.scannedThresholds.minTextItems)))) = false := by
        have h2 := hscan
        unfold scannedGuard at h2
        rw [hm] at h2
        exact h2
      simp only [classifyDocument, hnorule, hm, hguard, Bool.false_eq_true, if_false]
  have hENE : specEntries o ≠ [] := by
    unfold specEntries
    intro hnil
    exact hne (List.map_eq_nil_iff.mp hnil)
  have hcd1 : classifyTextPhase o = (match sortDesc (specEntries o) with
      | [] => none
      | best :: rest =>
        if best.2 < SCORE_FLOOR ∨
            best.2 - ((rest.head?.map (fun p => p.2)).getD 0) < LOW_CONFIDENCE_MARGIN then
          some { decision := .review, candidate := some best.1,
                 reason := str "low_confidence", score := best.2, scores := specEntries o }
        else
          some { decision := .assigned, schedule := some best.1,
                 reason := str "keyword_score", score := best.2, scores := specEntries o }) := by
    unfold classifyTextPhase
    rw [if_neg htext, hentries]
  cases hs : sortDesc (specEntries o) with
  | nil =>
    exfalso
    have hlen := (sortDesc_perm (specEntries o)).length_eq
    rw [hs] at hlen
    exact hENE (List.length_eq_zero.mp hlen.symm)
  | cons e0 tail =>
    have he0 : firstMax (specEntries o) = some e0 := by
      have h2 := head?_sortDesc (specEntries o)
      rw [hs] at h2
      exact h2.symm
    have hbest : specBest (specEntries o) = e0.2 := by
      unfold specBest
      rw [he0]
    refine ⟨e0, he0, ?_⟩
    rw [hcd0, hcd1, hs]
    cases tail with
    | nil =>
      have hperm : List.Perm [e0] (specEntries o) := hs ▸ sortDesc_perm (specEntries o)
      have hsingle : specEntries o = [e0] := List.perm_singleton.mp hperm.symm
      have hrun0 : specRunnerUp (specEntries o) = 0 := by
        unfold specRunnerUp
        rw [hbest, hsingle]
        simp [listMaxD]
      rw [hrun0]
      by_cases hc : e0.2 < SCORE_FLOOR ∨ e0.2 < LOW_CONFIDENCE_MARGIN <;> simp [hc]
    | cons e1 rest =>
      have hrun : specRunnerUp (specEntries o) = e1.2 := by
        unfold specRunnerUp
        rw [hbest]
        exact (sortDesc_second (specEntries o) e0 e1 rest hs).symm
      rw [hrun]
      by_cases hc : e0.2 < SCORE_FLOOR ∨ e0.2 - e1.2 < LOW_CONFIDENCE_MARGIN <;> simp [hc]

/-- Witness for C3 at `optsKeyword`: score A = 22, B = 0, margin 22,
decision `assigned` with reason `keyword_score`. -/
theorem claim_C3_witness :
    specEntries optsKeyword = optsKeyword.config.schedules.map (fun s => (s.id,
      ((s.keywords ++ s.smallTerms).map
        (fun t => (countTermOccurrences optsKeyword.text t.term : Int) * t.weight)).sum)) ∧
    ∃ top, firstMax (specEntries optsKeyword) = some top ∧
      classifyDocument optsKeyword = some (
        if top.2 < SCORE_FLOOR ∨
            top.2 - specRunnerUp (specEntries optsKeyword) < LOW_CONFIDENCE_MARGIN
        then { decision := .review, candidate := some top.1,
               reason := str "low_confidence", score := top.2,
               scores := specEntries optsKeyword }
        else { decision := .assigned, schedule := some top.1,
               reason := str "keyword_score", score := top.2,
               scores := specEntries optsKeyword }) :=
  claim_C3 optsKeyword rfl rfl (by decide) (by decide) (by decide)

/-- Witness for the amended C4 at a concrete low-text PDF. -/
theorem claim_C4_witness :
    ∃ res, classifyDocument optsScannedNoRule = some res ∧
      res.decision = .review ∧
      res.candidate = some (str "Unknown") ∧
      res.schedule = none ∧
      res.reason = scannedReason { text := [], numPages := 4, pagesSampled := 4,
                                   chars := 17, textItems := 4 } ∧
      (str "likely_scanned_pdf").isPrefixOf res.reason = true ∧
      res.score = 0 ∧
      (∀ c, c ∈ res.scores.map Prod.fst ↔
        c ∈ optsScannedNoRule.config.schedules.map (fun s => s.id)) ∧
      (∀ p ∈ res.scores, p.2 = 0) :=
  claim_C4_amended optsScannedNoRule _ rfl rfl rfl (by decide) (by decide)

/-! Lemmas for output-path assignment (claim C7). -/

theorem digitChar_toNat (d : Nat) (h : d < 10) : (digitChar d).toNat = 48 + d := by
  interval_cases d <;> rfl

theorem decDigits_append (s : Str) (c : Char) :
    decDigits (s ++ [c]) = (decDigits s) * 10 + (c.toNat - 48) := by
  simp [decDigits, List.foldl_append]

theorem decDigits_natToStrAux :
    ∀ (fuel n : Nat), n < fuel → decDigits (natToStrAux fuel n) = n := by
  intro fuel
  induction fuel with
  | zero => intro n h; omega
  | succ fuel ih =>
    intro n h
    unfold natToStrAux
    split
    · rename_i h10
      simp only [decDigits, List.foldl_cons, List.foldl_nil]
      rw [digitChar_toNat n h10]
      omega
    · rename_i h10
      have hdlt : n / 10 < fuel := by
        have h1 : n / 10 < n := Nat.div_lt_self (by omega) (by omega)
        omega
      rw [decDigits_append, ih (n / 10) hdlt,
        digitChar_toNat (n % 10) (Nat.mod_lt n (by omega))]
      omega

theorem decDigits_natToStr (n : Nat) : decDigits (natToStr n) = n :=
  decDigits_natToStrAux (n + 1) n (by omega)

theorem natToStr_inj {a b : Nat} (h : natToStr a = natToStr b) : a = b := by
  rw [← decDigits_natToStr a, ← decDigits_natToStr b, h]

theorem natToStrAux_digits :
    ∀ (fuel n : Nat), ∀ c ∈ natToStrAux fuel n, 48 ≤ c.toNat ∧ c.toNat ≤ 57 := by
  intro fuel
  induction fuel with
  | zero => intro n c hc; cases hc
  | succ fuel ih =>
    intro n c hc
    unfold natToStrAux at hc
    split at hc
    · rename_i h
      simp only [List.mem_singleton] at hc
      subst hc
      rw [digitChar_toNat n h]
      omega
    · rename_i h
      rcases List.mem_append.mp hc with hm | hm
      · exact ih (n / 10) c hm
      · simp only [List.mem_singleton] at hm
        subst hm
        rw [digitChar_toNat (n % 10) (Nat.mod_lt n (by omega))]
        omega

theorem natToStr_digits (n : Nat) : ∀ c ∈ natToStr n, 48 ≤ c.toNat ∧ c.toNat ≤ 57 :=
  natToStrAux_digits (n + 1) n

theorem slash_not_mem_natToStr (n : Nat) : '/' ∉ natToStr n := by
  intro h
  have h2 := natToStr_digits n '/' h
  have h3 : ('/').toNat = 47 := rfl
  omega

theorem mkCandidate_inj (base ext : Str) : Function.Injective (mkCandidate base ext) := by
  intro a b h
  unfold mkCandidate at h
  have h2 := List.append_cancel_right h
  have h3 := List.append_cancel_left h2
  exact natToStr_inj h3

theorem mkCandidate_slashfree (base ext : Str) (n : Nat)
    (hb : '/' ∉ base) (he : '/' ∉ ext) : '/' ∉ mkCandidate base ext n := by
  unfold mkCandidate
  intro hmem
  rcases List.mem_append.mp hmem with hm | hm
  · rcases List.mem_append.mp hm with hm2 | hm2
    · rcases List.mem_append.mp hm2 with hm3 | hm3
      · exact hb hm3
      · exact absurd hm3 (by decide)
    · exact slash_not_mem_natToStr n hm2
  · exact he hm

/-! Association-map lemmas (JS `Map.get`/`Map.set`). -/

theorem assocGet_cons {β : Type} (p : Str × β) (m : List (Str × β)) (k : Str) :
    assocGet (p :: m) k = if p.1 = k then some p.2 else assocGet m k := by
  unfold assocGet
  by_cases hp : p.1 = k <;> simp [List.find?_cons, hp]

theorem assocGet_none {β : Type} (m : List (Str × β)) (k : Str)
    (h : m.any (fun p => decide (p.1 = k)) = false) : assocGet m k = none := by
  induction m with
  | nil => rfl
  | cons p m ih =>
    simp only [List.any_cons, Bool.or_eq_false_iff] at h
    rw [assocGet_cons, if_neg (by simpa using h.1)]
    exact ih h.2

theorem assocGet_map_set_self {β : Type} (m : List (Str × β)) (k : Str) (v : β)
    (hany : m.any (fun p => decide (p.1 = k)) = true) :
    assocGet (m.map (fun p => if p.1 = k then (k, v) else p)) k = some v := by
  induction m with
  | nil => simp at hany
  | cons p m ih =>
    rw [List.map_cons]
    by_cases hp : p.1 = k
    · rw [if_pos hp, assocGet_cons, if_pos rfl]
    · rw [if_neg hp, assocGet_cons, if_neg hp]
      apply ih
      have hfp : (decide (p.1 = k)) = false := decide_eq_false hp
      rw [List.any_cons, hfp, Bool.false_or] at hany
      exact hany

theorem assocGet_map_set_ne {β : Type} (m : List (Str × β)) (k : Str) (v : β) (q : Str)
    (h : q ≠ k) :
    assocGet (m.map (fun p => if p.1 = k then (k, v) else p)) q = assocGet m q := by
  induction m with
  | nil => rfl
  | cons p m ih =>
    rw [List.map_cons]
    by_cases hp : p.1 = k
    · have hkq : ¬((k, v).1 = q) := fun hh => h hh.symm
      have hpq : ¬(p.1 = q) := fun hh => h (hh.symm.trans hp)
      rw [if_pos hp, assocGet_cons, assocGet_cons, if_neg hkq, if_neg hpq]
      exact ih
    · rw [if_neg hp, assocGet_cons, assocGet_cons]
      by_cases hq : p.1 = q
      · rw [if_pos hq, if_pos hq]
      · rw [if_neg hq, if_neg hq]
        exact ih

theorem assocGet_append_single_self {β : Type} (m : List (Str × β)) (k : Str) (v : β)
    (hnone : assocGet m k = none) : assocGet (m ++ [(k, v)]) k = some v := by
  unfold assocGet at *
  rw [List.find?_append]
  rw [Option.map_eq_none'] at hnone
  rw [hnone]
  simp [List.find?_cons]

theorem assocGet_append_single_ne {β : Type} (m : List (Str × β)) (k : Str) (v : β)
    (q : Str) (h : q ≠ k) : assocGet (m ++ [(k, v)]) q = assocGet m q := by
  unfold assocGet
  rw [List.find?_append]
  have hkq : ¬((k, v).1 = q) := fun hh => h hh.symm
  have hnone : List.find? (fun p => decide (p.1 = q)) [(k, v)] = none := by
    simp [hkq]
  rw [hnone]
  cases List.find? (fun p => decide (p.1 = q)) m <;> rfl

theorem assocGet_assocSet_self {β : Type} (m : List (Str × β)) (k : Str) (v : β) :
    assocGet (assocSet m k v) k = some v := by
  unfold assocSet
  split
  · rename_i hany
    exact assocGet_map_set_self m k v hany
  · rename_i hany
    exact assocGet_append_single_self m k v
      (assocGet_none m k (Bool.eq_false_iff.mpr hany))

theorem assocGet_assocSet_ne {β : Type} (m : List (Str × β)) (k : Str) (v : β) (q : Str)
    (h : q ≠ k) : assocGet (assocSet m k v) q = assocGet m q := by
  unfold assocSet
  split
  · exact assocGet_map_set_ne m k v q h
  · exact assocGet_append_single_ne m k v q h

/-! Lemmas about path splitting. -/

theorem splitOnChar_ne_nil (sep : Char) (s : Str) : splitOnChar sep s ≠ [] := by
  cases s with
  | nil => simp [splitOnChar]
  | cons c rest =>
    unfold splitOnChar
    split
    · simp
    · split <;> simp

theorem mem_splitOnChar_not_mem (sep : Char) (s : Str) :
    ∀ p ∈ splitOnChar sep s, sep ∉ p := by
  induction s with
  | nil =>
    intro p hp
    simp only [splitOnChar, List.mem_singleton] at hp
    subst hp
    simp
  | cons c rest ih =>
    intro p hp
    unfold splitOnChar at hp
    split at hp
    · rcases List.mem_cons.mp hp with rfl | hp2
      · simp
      · exact ih p hp2
    · rename_i hc
      cases hsp : splitOnChar sep rest with
      | nil => exact absurd hsp (splitOnChar_ne_nil sep rest)
      | cons p0 ps =>
        rw [hsp] at hp
        rcases List.mem_cons.mp hp with rfl | hp2
        · intro hmem
          rcases List.mem_cons.mp hmem with rfl | hmem2
          · exact hc rfl
          · exact ih p0 (hsp ▸ List.mem_cons_self p0 ps) hmem2
        · exact ih p (hsp ▸ List.mem_cons_of_mem p0 hp2)

theorem splitLast_slashfree (s dflt : Str) :
    '/' ∉ (splitOnChar '/' s).getLast?.getD dflt ∨
      (splitOnChar '/' s).getLast? = none := by
  cases hl : (splitOnChar '/' s).getLast? with
  | none => exact Or.inr rfl
  | some l =>
    left
    simpa using mem_splitOnChar_not_mem '/' s l (List.mem_of_getLast?_eq_some hl)

/-! The collision loop. -/

theorem ensureLoop_found (used : List Str) (base ext : Str) :
    ∀ (fuel n : Nat),
      ((List.range' n fuel).filter
        (fun j => decide (mkCandidate base ext j ∈ used))).length < fuel →
      ∃ N, n ≤ N ∧ ensureLoop used base ext fuel n = mkCandidate base ext N ∧
        mkCandidate base ext N ∉ used ∧
        ∀ k, n ≤ k → k < N → mkCandidate base ext k ∈ used := by
  intro fuel
  induction fuel with
  | zero => intro n h; exact absurd h (Nat.not_lt_zero _)
  | succ fuel ih =>
    intro n hlen
    by_cases hc : mkCandidate base ext n ∈ used
    · have hrange : List.range' n (fuel + 1) = n :: List.range' (n + 1) fuel :=
        List.range'_succ n fuel 1
      rw [hrange, List.filter_cons] at hlen
      rw [if_pos (by simpa using hc)] at hlen
      simp only [List.length_cons] at hlen
      have hlen2 : ((List.range' (n + 1) fuel).filter
          (fun j => decide (mkCandidate base ext j ∈ used))).length < fuel := by omega
      obtain ⟨N, hN1, hres, hfree, hall⟩ := ih (n + 1) hlen2
      refine ⟨N, by omega, ?_, hfree, ?_⟩
      · unfold ensureLoop
        rw [if_pos hc]
        exact hres
      · intro k hk1 hk2
        by_cases hkn : k = n
        · subst hkn; exact hc
        · exact hall k (by omega) hk2
    · refine ⟨n, le_refl n, ?_, hc, ?_⟩
      · unfold ensureLoop
        rw [if_neg hc]
      · intro k hk1 hk2
        omega

theorem candidate_filter_len (used : List Str) (base ext : Str) (n fuel : Nat) :
    ((List.range' n fuel).filter
      (fun j => decide (mkCandidate base ext j ∈ used))).length ≤ used.length := by
  set S := (List.range' n fuel).filter (fun j => decide (mkCandidate base ext j ∈ used))
    with hS
  have hSnodup : S.Nodup := (List.nodup_range' n fuel).filter _
  have hmapnodup : (S.map (mkCandidate base ext)).Nodup :=
    hSnodup.map (mkCandidate_inj base ext)
  have hsub : (S.map (mkCandidate base ext)) ⊆ used := by
    intro x hx
    obtain ⟨j, hj, rfl⟩ := List.mem_map.mp hx
    have hcond := (List.mem_filter.mp (hS ▸ hj)).2
    simpa using hcond
  calc S.length = (S.map (mkCandidate base ext)).length := (List.length_map S _).symm
    _ ≤ used.length := (hmapnodup.subperm hsub).length_le

theorem ensureUnique_fresh (name : Str) (used : List Str) :
    (ensureUniqueFilename name used).1 ∉ used ∧
    (ensureUniqueFilename name used).2 = used ++ [(ensureUniqueFilename name used).1] := by
  by_cases h : name ∈ used
  · have hlen : ((List.range' 1 (used.length + 1)).filter
        (fun j => decide (mkCandidate (dupBase name) (dupExt name) j ∈ used))).length <
        used.length + 1 :=
      lt_of_le_of_lt (candidate_filter_len used _ _ 1 (used.length + 1)) (by omega)
    obtain ⟨N, -, hres, hfree, -⟩ :=
      ensureLoop_found used (dupBase name) (dupExt name) (used.length + 1) 1 hlen
    unfold ensureUniqueFilename
    rw [if_pos h]
    simp only [hres, jsSetAdd, if_neg hfree]
    exact ⟨hfree, trivial⟩
  · unfold ensureUniqueFilename
    rw [if_neg h]
    simp only [jsSetAdd, if_neg h]
    exact ⟨h, trivial⟩

theorem ensureUnique_dup (name : Str) (used : List Str) (h : name ∈ used) :
    ∃ N, 1 ≤ N ∧ (ensureUniqueFilename name used).1 = dupName name N ∧
      dupName name N ∉ used ∧ ∀ k, 1 ≤ k → k < N → dupName name k ∈ used := by
  have hlen : ((List.range' 1 (used.length + 1)).filter
      (fun j => decide (mkCandidate (dupBase name) (dupExt name) j ∈ used))).length <
      used.length + 1 :=
    lt_of_le_of_lt (candidate_filter_len used _ _ 1 (used.length + 1)) (by omega)
  obtain ⟨N, hN1, hres, hfree, hall⟩ :=
    ensureLoop_found used (dupBase name) (dupExt name) (used.length + 1) 1 hlen
  refine ⟨N, hN1, ?_, hfree, hall⟩
  unfold ensureUniqueFilename
  rw [if_pos h]
  simp only [hres]
  rfl

theorem ensureLoop_slashfree (used : List Str) (base ext : Str)
    (hb : '/' ∉ base) (he : '/' ∉ ext) :
    ∀ (fuel n : Nat), '/' ∉ ensureLoop used base ext fuel n := by
  intro fuel
  induction fuel with
  | zero => intro n; exact mkCandidate_slashfree base ext n hb he
  | succ fuel ih =>
    intro n
    unfold ensureLoop
    split
    · exact ih (n + 1)
    · exact mkCandidate_slashfree base ext n hb he

theorem ensureUnique_slashfree (name : Str) (used : List Str) (h : '/' ∉ name) :
    '/' ∉ (ensureUniqueFilename name used).1 := by
  unfold ensureUniqueFilename
  split
  · show '/' ∉ ensureLoop used (dupBase name) (dupExt name) (used.length + 1) 1
    have hb : '/' ∉ dupBase name := by
      unfold dupBase
      split
      · exact h
      · exact fun hm => h (List.take_subset _ _ hm)
    have he : '/' ∉ dupExt name := by
      unfold dupExt
      split
      · simp
      · exact fun hm => h (List.drop_subset _ _ hm)
    exact ensureLoop_slashfree used _ _ hb he _ 1
  · exact h

/-! Injectivity of the directory/filename composition. -/

theorem slashfree_prefix_inj (a1 : Str) :
    ∀ (a2 b1 b2 : Str), '/' ∉ a1 → '/' ∉ a2 →
      a1 ++ '/' :: b1 = a2 ++ '/' :: b2 → a1 = a2 ∧ b1 = b2 := by
  induction a1 with
  | nil =>
    intro a2 b1 b2 _ h2 heq
    cases a2 with
    | nil =>
      simp only [List.nil_append] at heq
      injection heq with _ h
      exact ⟨rfl, h⟩
    | cons c a2 =>
      simp only [List.nil_append, List.cons_append] at heq
      injection heq with hc _
      exact absurd (hc ▸ List.mem_cons_self c a2) h2
  | cons c a1 ih =>
    intro a2 b1 b2 h1 h2 heq
    cases a2 with
    | nil =>
      simp only [List.cons_append, List.nil_append] at heq
      injection heq with hc _
      exact absurd (hc ▸ List.mem_cons_self c a1) h1
    | cons c2 a2 =>
      simp only [List.cons_append] at heq
      injection heq with hc htl
      subst hc
      obtain ⟨ha, hb⟩ := ih a2 b1 b2 (fun hm => h1 (List.mem_cons_of_mem c hm))
        (fun hm => h2 (List.mem_cons_of_mem c hm)) htl
      exact ⟨by rw [ha], hb⟩

theorem lastSlash_inj (d1 n1 d2 n2 : Str) (h1 : '/' ∉ n1) (h2 : '/' ∉ n2)
    (heq : d1 ++ '/' :: n1 = d2 ++ '/' :: n2) : d1 = d2 ∧ n1 = n2 := by
  have hrev : n1.reverse ++ '/' :: d1.reverse = n2.reverse ++ '/' :: d2.reverse := by
    have h3 := congrArg List.reverse heq
    simpa [List.reverse_append] using h3
  have h1r : '/' ∉ n1.reverse := by simpa using h1
  have h2r : '/' ∉ n2.reverse := by simpa using h2
  obtain ⟨hn, hd⟩ := slashfree_prefix_inj n1.reverse n2.reverse d1.reverse d2.reverse h1r h2r hrev
  constructor
  · have := congrArg List.reverse hd
    simpa using this
  · have := congrArg List.reverse hn
    simpa using this

theorem mkOutputPath_inj (d1 n1 d2 n2 : Str) (h1 : '/' ∉ n1) (h2 : '/' ∉ n2)
    (heq : mkOutputPath d1 n1 = mkOutputPath d2 n2) : d1 = d2 ∧ n1 = n2 := by
  unfold mkOutputPath at heq
  by_cases hd1 : d1.length > 0 <;> by_cases hd2 : d2.length > 0
  · rw [if_pos hd1, if_pos hd2] at heq
    exact lastSlash_inj d1 n1 d2 n2 h1 h2 heq
  · rw [if_pos hd1, if_neg hd2] at heq
    exfalso
    apply h2
    rw [← heq]
    exact List.mem_append_right d1 (List.mem_cons_self '/' n1)
  · rw [if_neg hd1, if_pos hd2] at heq
    exfalso
    apply h1
    rw [heq]
    exact List.mem_append_right d2 (List.mem_cons_self '/' n2)
  · rw [if_neg hd1, if_neg hd2] at heq
    have hd1n : d1 = [] := by
      cases d1 with
      | nil => rfl
      | cons c cs => simp at hd1
    have hd2n : d2 = [] := by
      cases d2 with
      | nil => rfl
      | cons c cs => simp at hd2
    exact ⟨by rw [hd1n, hd2n], heq⟩

theorem assignGo_cons (m : List (Str × List Str)) (f : ProcessedFile)
    (fs : List ProcessedFile) :
    assignGo m (f :: fs) =
      { f with outputPath := mkOutputPath (assignDir f) (assignStep m f).1 } ::
        assignGo (assocSet m (assignDir f) (assignStep m f).2) fs := rfl

theorem assignFilename_slashfree (f : ProcessedFile) : '/' ∉ assignFilename f := by
  unfold assignFilename
  rcases splitLast_slashfree (buildBaseOutputPath f) f.name with h | h
  · exact h
  · exact absurd (List.getLast?_eq_none_iff.mp h)
      (splitOnChar_ne_nil '/' (buildBaseOutputPath f))

theorem assignGo_nodup_aux (files : List ProcessedFile) :
    ∀ (m : List (Str × List Str)) (seenPaths : List Str),
      (∀ pth ∈ seenPaths, ∃ d n, pth = mkOutputPath d n ∧ '/' ∉ n ∧
        n ∈ (assocGet m d).getD []) →
      seenPaths.Nodup →
      (seenPaths ++ (assignGo m files).map (fun f => f.outputPath)).Nodup := by
  induction files with
  | nil =>
    intro m seen hinv hnd
    simpa [assignGo] using hnd
  | cons f fs ih =>
    intro m seen hinv hnd
    rw [assignGo_cons, List.map_cons]
    have hfresh : (assignStep m f).1 ∉ (assocGet m (assignDir f)).getD [] ∧
        (assignStep m f).2 = (assocGet m (assignDir f)).getD [] ++ [(assignStep m f).1] :=
      ensureUnique_fresh (assignFilename f) ((assocGet m (assignDir f)).getD [])
    have hslash : '/' ∉ (assignStep m f).1 :=
      ensureUnique_slashfree _ _ (assignFilename_slashfree f)
    have hnotin : mkOutputPath (assignDir f) (assignStep m f).1 ∉ seen := by
      intro hmem
      obtain ⟨d, n, hpth, hn, hnm⟩ := hinv _ hmem
      obtain ⟨hd, hn2⟩ := mkOutputPath_inj d n (assignDir f) _ hn hslash hpth.symm
      apply hfresh.1
      rw [← hn2, ← hd]
      exact hnm
    have hgoal : seen ++
        ({ f with outputPath := mkOutputPath (assignDir f) (assignStep m f).1 } :
          ProcessedFile).outputPath ::
          (assignGo (assocSet m (assignDir f) (assignStep m f).2) fs).map
            (fun g => g.outputPath) =
        (seen ++ [mkOutputPath (assignDir f) (assignStep m f).1]) ++
          (assignGo (assocSet m (assignDir f) (assignStep m f).2) fs).map
            (fun g => g.outputPath) := by
      simp
    rw [hgoal]
    apply ih
    · intro pth hpth
      rcases List.mem_append.mp hpth with hold | hnew
      · obtain ⟨d, n, h1, h2, h3⟩ := hinv pth hold
        refine ⟨d, n, h1, h2, ?_⟩
        by_cases hd : d = assignDir f
        · subst hd
          rw [assocGet_assocSet_self, Option.getD_some, hfresh.2]
          exact List.mem_append_left _ h3
        · rw [assocGet_assocSet_ne _ _ _ _ hd]
          exact h3
      · simp only [List.mem_singleton] at hnew
        subst hnew
        refine ⟨assignDir f, _, rfl, hslash, ?_⟩
        rw [assocGet_assocSet_self, Option.getD_some, hfresh.2]
        exact List.mem_append_right _ (List.mem_singleton_self _)
    · rw [List.nodup_append]
      refine ⟨hnd, List.nodup_singleton _, ?_⟩
      intro x hx hx2
      simp only [List.mem_singleton] at hx2
      subst hx2
      exact hnotin hx

/-- Claim C7: after a full `assignOutputPaths` pass all output paths are
pairwise distinct, and a filename that collides with an already-used name
in its folder is disambiguated by inserting `__dup<N>` before the file
extension, with N the least counter (starting at 1) whose candidate is
free. -/
theorem claim_C7 :
    (∀ files : List ProcessedFile,
      ((assignOutputPaths files).map (fun f => f.outputPath)).Nodup) ∧
    (∀ (name : Str) (used : List Str), name ∈ used →
      ∃ N, 1 ≤ N ∧ (ensureUniqueFilename name used).1 = dupName name N ∧
        dupName name N ∉ used ∧ ∀ k, 1 ≤ k → k < N → dupName name k ∈ used) := by
  constructor
  · intro files
    have h := assignGo_nodup_aux files [] [] (by simp) (by simp)
    simpa [assignOutputPaths] using h
  · exact ensureUnique_dup

/-- Witness for C7: three colliding names become `a.pdf`, `a__dup1.pdf`,
`a__dup2.pdf`, and the collision loop picks the least free counter. -/
theorem claim_C7_witness :
    ((assignOutputPaths [pfDupSample, pfDupSample, pfDupSample]).map
      (fun f => f.outputPath)).Nodup ∧
    (∃ N, 1 ≤ N ∧
      (ensureUniqueFilename (str "a.pdf") [str "a.pdf", str "a__dup1.pdf"]).1 =
        dupName (str "a.pdf") N ∧
      dupName (str "a.pdf") N ∉ [str "a.pdf", str "a__dup1.pdf"] ∧
      ∀ k, 1 ≤ k → k < N → dupName (str "a.pdf") k ∈ [str "a.pdf", str "a__dup1.pdf"]) :=
  ⟨claim_C7.1 [pfDupSample, pfDupSample, pfDupSample],
   claim_C7.2 (str "a.pdf") [str "a.pdf", str "a__dup1.pdf"] (by decide)⟩

/-! Claims C5 and C6: pipeline-level properties. -/

theorem recordSet_keys_nodup (r : List (Str × Int)) (k : Str) (v : Int)
    (h : (r.map Prod.fst).Nodup) : ((recordSet r k v).map Prod.fst).Nodup := by
  rw [keys_recordSet]
  split
  · exact h
  · rename_i hany
    rw [List.nodup_append]
    refine ⟨h, List.nodup_singleton _, ?_⟩
    intro x hx hx2
    simp only [List.mem_singleton] at hx2
    subst hx2
    obtain ⟨p, hp, hpk⟩ := List.mem_map.mp hx
    exact hany (List.any_eq_true.mpr ⟨p, hp, by simpa using hpk⟩)

theorem buildScores_keys_nodup (ss : List ScheduleDefinition) (f : ScheduleDefinition → Int) :
    ((buildScores ss f).map Prod.fst).Nodup := by
  suffices h : ∀ acc : List (Str × Int), (acc.map Prod.fst).Nodup →
      ((ss.foldl (fun r s => recordSet r s.id (f s)) acc).map Prod.fst).Nodup by
    exact h [] (by simp)
  induction ss with
  | nil => intro acc hacc; simpa using hacc
  | cons s ss ih =>
    intro acc hacc
    exact ih (recordSet acc s.id (f s)) (recordSet_keys_nodup acc s.id (f s) hacc)

theorem scoresFold_prop (Q : Str × Int → Prop) (f : ScheduleDefinition → Int) :
    ∀ (ss : List ScheduleDefinition) (acc : List (Str × Int)),
      (∀ p ∈ acc, Q p) → (∀ s ∈ ss, Q (s.id, f s)) →
      ∀ p ∈ ss.foldl (fun r s => recordSet r s.id (f s)) acc, Q p := by
  intro ss
  induction ss with
  | nil => intro acc hacc _ p hp; exact hacc p hp
  | cons s ss ih =>
    intro acc hacc hss p hp
    refine ih (recordSet acc s.id (f s)) ?_ (fun s2 h2 => hss s2 (List.mem_cons_of_mem s h2)) p hp
    intro q hq
    unfold recordSet at hq
    split at hq
    · obtain ⟨q0, hq0, hq0e⟩ := List.mem_map.mp hq
      by_cases hqk : q0.1 = s.id
      · simp only [hqk, if_pos] at hq0e
        subst hq0e
        exact hss s (List.mem_cons_self s ss)
      · simp only [hqk, if_neg, not_false_iff] at hq0e
        subst hq0e
        exact hacc q0 hq0
    · rcases List.mem_append.mp hq with hmem | hmem
      · exact hacc q hmem
      · simp only [List.mem_singleton] at hmem
        subst hmem
        exact hss s (List.mem_cons_self s ss)

theorem scoreSchedule_nonneg (text : Str) (s : ScheduleDefinition)
    (hk : ∀ t ∈ s.keywords, 0 ≤ t.weight) (hs : ∀ t ∈ s.smallTerms, 0 ≤ t.weight) :
    0 ≤ scoreSchedule text s := by
  rw [scoreSchedule_eq_sum]
  apply List.sum_nonneg
  intro x hx
  obtain ⟨t, ht, rfl⟩ := List.mem_map.mp hx
  have hw : 0 ≤ t.weight := by
    rcases List.mem_append.mp ht with hm | hm
    · exact hk t hm
    · exact hs t hm
  exact mul_nonneg (Int.natCast_nonneg _) hw

/-- The score-vector shape of any result `classifyDocument` returns. -/
theorem classify_scores_shape (o : ClassifyOptions) (r : ClassificationResult)
    (hw : ∀ s ∈ o.config.schedules,
      (∀ t ∈ s.keywords, 0 ≤ t.weight) ∧ (∀ t ∈ s.smallTerms, 0 ≤ t.weight))
    (h : classifyDocument o = some r) :
    (∀ c, c ∈ r.scores.map Prod.fst ↔ c ∈ o.config.schedules.map (fun s => s.id)) ∧
    (r.scores.map Prod.fst).Nodup ∧
    (∀ p ∈ r.scores, 0 ≤ p.2) := by
  have hscoring : ∀ (o' : ClassifyOptions), o'.config = o.config → classifyTextPhase o' = some r →
      (∀ c, c ∈ r.scores.map Prod.fst ↔ c ∈ o.config.schedules.map (fun s => s.id)) ∧
      (r.scores.map Prod.fst).Nodup ∧
      (∀ p ∈ r.scores, 0 ≤ p.2) := by
    intro o' hcfg h'
    unfold classifyTextPhase at h'
    split at h'
    · cases h'
      rw [← hcfg]
      refine ⟨fun c => mem_keys_buildScores _ c _, buildScores_keys_nodup _ _, ?_⟩
      intro p hp
      rw [val_buildScores_keyed (fun _ => 0) o'.config.schedules p hp]
    · simp only at h'
      split at h'
      · cases h'
      · rw [← hcfg]
        have hshape : ∀ p ∈ buildScores o'.config.schedules
            (fun s => scoreSchedule o'.text s), 0 ≤ p.2 := by
          apply scoresFold_prop (fun p => 0 ≤ p.2)
          · simp
          · intro s hsm
            have hws := hw s (hcfg ▸ hsm)
            exact scoreSchedule_nonneg o'.text s hws.1 hws.2
        split at h' <;> cases h' <;>
          exact ⟨fun c => mem_keys_buildScores _ c _, buildScores_keys_nodup _ _, hshape⟩
  unfold classifyDocument at h
  simp only at h
  split at h
  · cases h
    refine ⟨fun c => mem_keys_buildScores _ c _, buildScores_keys_nodup _ _, ?_⟩
    intro p hp
    rename_i m _
    rw [val_buildScores_keyed (fun c => if c = m then SCORE_FLOOR else 0)
      o.config.schedules p hp]
    split <;> simp [SCORE_FLOOR]
  · split at h
    · split at h
      · cases h
        refine ⟨fun c => mem_keys_buildScores _ c _, buildScores_keys_nodup _ _, ?_⟩
        intro p hp
        rw [val_buildScores_keyed (fun _ => 0) o.config.schedules p hp]
      · exact hscoring o rfl h
    · exact hscoring o rfl h

/-- Counterexample to C5 as stated: a pipeline run over two byte-identical
documents produces an entry whose decision is `duplicate` — neither
`assigned` nor `review` — so "exactly one of assigned or review holds"
fails for documents processed by the pipeline. -/
theorem claim_C5_counterexample :
    ∃ f ∈ pipelineOutputs envOne [imgDoc1, imgDoc2] [0, 1],
      ¬(f.decision = PDecision.assigned ∨ f.decision = PDecision.review) := by
  decide

/-- Claim C5 as amended: every `ClassificationResult` that
`classifyDocument` returns (for nonnegative configured weights) has
decision `assigned` or `review` (exactly one, the decision being a single
enum value), and its score vector has exactly one entry per configured
category — the keys are exactly the configured ids, without duplicates —
each with a value ≥ 0.  Pipeline-level `ProcessedFile` entries may
additionally carry decision `duplicate`, and the pipeline's error-path
entries carry empty score vectors. -/
theorem claim_C5_amended (o : ClassifyOptions) (r : ClassificationResult)
    (hw : ∀ s ∈ o.config.schedules,
      (∀ t ∈ s.keywords, 0 ≤ t.weight) ∧ (∀ t ∈ s.smallTerms, 0 ≤ t.weight))
    (h : classifyDocument o = some r) :
    (r.decision = .assigned ∨ r.decision = .review) ∧
    (∀ c, c ∈ r.scores.map Prod.fst ↔ c ∈ o.config.schedules.map (fun s => s.id)) ∧
    (r.scores.map Prod.fst).Nodup ∧
    (∀ p ∈ r.scores, 0 ≤ p.2) := by
  obtain ⟨h1, h2, h3⟩ := classify_scores_shape o r hw h
  refine ⟨?_, h1, h2, h3⟩
  cases hd : r.decision
  · exact Or.inl rfl
  · exact Or.inr rfl

/-- Witness for the amended C5 at the keyword-scoring input. -/
theorem claim_C5_witness :
    ∃ r, classifyDocument optsKeyword = some r ∧
      ((r.decision = .assigned ∨ r.decision = .review) ∧
       (∀ c, c ∈ r.scores.map Prod.fst ↔
         c ∈ optsKeyword.config.schedules.map (fun s => s.id)) ∧
       (r.scores.map Prod.fst).Nodup ∧
       (∀ p ∈ r.scores, 0 ≤ p.2)) := by
  have h : classifyDocument optsKeyword = some
      { decision := .assigned, schedule := some (str "A_Real_Estate"),
        reason := str "keyword_score", score := 22,
        scores := [(str "A_Real_Estate", 22), (str "B_Stocks_Bonds", 0)] } := by
    decide
  exact ⟨_, h, claim_C5_amended optsKeyword _ (by decide) h⟩

/-- Claim C6 (refuted by the code; the dedup read-then-write races): for
two byte-identical PDFs, the schedule `[0, 1, 0, 1]` — worker 0 passes the
`seenHashes.has` check and suspends at `await extractPdfText`, worker 1
then passes the same check before worker 0's `seenHashes.set` runs — is
realizable under the default worker-pool concurrency of 2, and in it both
documents complete as first-seen (`review`), with no `sha256_duplicate`
entry at all.  The strictly sequential schedule of concurrency 1 does
produce the duplicate, showing the loss is due purely to interleaving. -/
theorem claim_C6_race :
    ((runSched envOne [pdfDoc1, pdfDoc2] [0, 1, 0, 1]).processed.map
        (fun f => f.decision) = [PDecision.review, PDecision.review] ∧
      ∀ f ∈ (runSched envOne [pdfDoc1, pdfDoc2] [0, 1, 0, 1]).processed,
        f.reason ≠ str "sha256_duplicate") ∧
    (runSched envOne [pdfDoc1, pdfDoc2] (seqSched [pdfDoc1, pdfDoc2])).processed.map
      (fun f => f.decision) = [PDecision.review, PDecision.duplicate] := by
  decide

/-! Lemmas for review clustering (claim C9): first-occurrence
deduplication. -/

theorem mem_firstDedupAux {α : Type} [DecidableEq α] (l : List α) :
    ∀ (seen : List α) (x : α), x ∈ firstDedupAux seen l ↔ x ∈ l ∧ x ∉ seen := by
  induction l with
  | nil => intro seen x; simp [firstDedupAux]
  | cons y ys ih =>
    intro seen x
    by_cases hy : y ∈ seen
    · simp only [firstDedupAux, if_pos hy, ih, List.mem_cons]
      constructor
      · rintro ⟨hx, hns⟩
        exact ⟨Or.inr hx, hns⟩
      · rintro ⟨hx | hx, hns⟩
        · exact absurd (hx ▸ hy) hns
        · exact ⟨hx, hns⟩
    · simp only [firstDedupAux, if_neg hy, List.mem_cons, ih, List.mem_append,
        List.mem_singleton]
      constructor
      · rintro (rfl | ⟨hx, hns⟩)
        · exact ⟨Or.inl rfl, hy⟩
        · exact ⟨Or.inr hx, fun hmem => hns (Or.inl hmem)⟩
      · rintro ⟨rfl | hx, hns⟩
        · exact Or.inl rfl
        · by_cases hxy : x = y
          · exact Or.inl hxy
          · refine Or.inr ⟨hx, ?_⟩
            rintro (hc | hc | hc)
            · exact hns hc
            · exact hxy hc
            · exact absurd hc (List.not_mem_nil x)

theorem firstDedupAux_nodup {α : Type} [DecidableEq α] (l : List α) :
    ∀ seen : List α, (firstDedupAux seen l).Nodup := by
  induction l with
  | nil => intro seen; simp [firstDedupAux]
  | cons y ys ih =>
    intro seen
    by_cases hy : y ∈ seen
    · simpa only [firstDedupAux, if_pos hy] using ih seen
    · simp only [firstDedupAux, if_neg hy, List.nodup_cons]
      refine ⟨?_, ih (seen ++ [y])⟩
      intro hmem
      have h2 := ((mem_firstDedupAux ys (seen ++ [y]) y).mp hmem).2
      exact h2 (List.mem_append.mpr (Or.inr (List.mem_singleton.mpr rfl)))

theorem mem_firstDedup {α : Type} [DecidableEq α] (l : List α) (x : α) :
    x ∈ firstDedup l ↔ x ∈ l := by
  unfold firstDedup
  rw [mem_firstDedupAux l [] x]
  simp

theorem firstDedup_nodup {α : Type} [DecidableEq α] (l : List α) :
    (firstDedup l).Nodup :=
  firstDedupAux_nodup l []

theorem firstDedupAux_length_le {α : Type} [DecidableEq α] (l : List α) :
    ∀ seen : List α, (firstDedupAux seen l).length ≤ l.length := by
  induction l with
  | nil => intro seen; simp [firstDedupAux]
  | cons y ys ih =>
    intro seen
    by_cases hy : y ∈ seen
    · simp only [firstDedupAux, if_pos hy, List.length_cons]
      exact Nat.le_succ_of_le (ih seen)
    · simp only [firstDedupAux, if_neg hy, List.length_cons]
      exact Nat.succ_le_succ (ih (seen ++ [y]))

theorem firstDedupAux_append {α : Type} [DecidableEq α] (a : List α) :
    ∀ seen b : List α,
      firstDedupAux seen (a ++ b) =
        firstDedupAux seen a ++ firstDedupAux (seen ++ firstDedupAux seen a) b := by
  induction a with
  | nil => intro seen b; simp [firstDedupAux]
  | cons y ys ih =>
    intro seen b
    by_cases hy : y ∈ seen
    · simp only [List.cons_append, firstDedupAux, if_pos hy, List.append_eq]
      exact ih seen b
    · simp only [List.cons_append, firstDedupAux, if_neg hy, List.append_eq]
      rw [ih (seen ++ [y]) b, List.append_assoc, List.singleton_append]

theorem firstDedupAux_of_disjoint {α : Type} [DecidableEq α] (l : List α) :
    ∀ seen : List α, l.Nodup → (∀ x ∈ l, x ∉ seen) → firstDedupAux seen l = l := by
  induction l with
  | nil => intro seen _ _; rfl
  | cons y ys ih =>
    intro seen hnd hdisj
    have hy : y ∉ seen := hdisj y (List.mem_cons_self y ys)
    simp only [firstDedupAux, if_neg hy]
    congr 1
    refine ih (seen ++ [y]) (List.nodup_cons.mp hnd).2 ?_
    intro x hx
    rw [List.mem_append, List.mem_singleton]
    rintro (h1 | rfl)
    · exact hdisj x (List.mem_cons_of_mem y hx) h1
    · exact (List.nodup_cons.mp hnd).1 hx

theorem firstDedup_of_nodup {α : Type} [DecidableEq α] (l : List α) (h : l.Nodup) :
    firstDedup l = l :=
  firstDedupAux_of_disjoint l [] h (fun x _ => List.not_mem_nil x)

theorem firstDedup_append {α : Type} [DecidableEq α] (a b : List α) :
    firstDedup (a ++ b) = firstDedup a ++ firstDedupAux (firstDedup a) b := by
  unfold firstDedup
  rw [firstDedupAux_append a [] b, List.nil_append]

theorem firstDedup_idem_append {α : Type} [DecidableEq α] (a b : List α) :
    firstDedup (firstDedup a ++ b) = firstDedup (a ++ b) := by
  rw [firstDedup_append (firstDedup a) b, firstDedup_append a b,
    firstDedup_of_nodup (firstDedup a) (firstDedup_nodup a)]

theorem firstDedup_take_append {α : Type} [DecidableEq α] (a b : List α) (k : Nat) :
    (firstDedup ((firstDedup a).take k ++ b)).take k =
      (firstDedup (a ++ b)).take k := by
  by_cases hk : (firstDedup a).length ≤ k
  · rw [List.take_of_length_le hk, firstDedup_idem_append]
  · have hklt : k < (firstDedup a).length := Nat.lt_of_not_le hk
    have hnd : ((firstDedup a).take k).Nodup :=
      List.Nodup.sublist (List.take_sublist k (firstDedup a)) (firstDedup_nodup a)
    have hlen : ((firstDedup a).take k).length = k := by
      rw [List.length_take]
      omega
    rw [firstDedup_append ((firstDedup a).take k) b, firstDedup_append a b,
      firstDedup_of_nodup ((firstDedup a).take k) hnd,
      List.take_append_of_le_length (Nat.le_of_eq hlen.symm),
      List.take_append_of_le_length (Nat.le_of_lt hklt),
      List.take_take, Nat.min_self]

theorem firstDedup_length_le {α : Type} [DecidableEq α] (l : List α) :
    (firstDedup l).length ≤ l.length :=
  firstDedupAux_length_le l []

theorem clusterTokensOf_len_le (f : ProcessedFile) :
    (clusterTokensOf f).length ≤ 12 :=
  List.length_take_le 12 _

theorem joinFirst_items_perm (tokens : List Str) (f : ProcessedFile) :
    ∀ cs cs' : List Cluster, joinFirst tokens f cs = some cs' →
      List.Perm (cs'.flatMap (fun c => c.items))
        (cs.flatMap (fun c => c.items) ++ [f]) := by
  intro cs
  induction cs with
  | nil => intro cs' h; cases h
  | cons c cs ih =>
    intro cs' h
    simp only [joinFirst] at h
    split at h
    · injection h with h2
      subst h2
      simpa only [List.flatMap_cons, List.append_assoc] using
        List.Perm.append_left c.items List.perm_append_comm
    · cases hj : joinFirst tokens f cs with
      | none =>
        simp only [hj] at h
        exact Option.noConfusion h
      | some cs2 =>
        simp only [hj] at h
        injection h with h2
        subst h2
        simpa only [List.flatMap_cons, List.append_assoc] using
          List.Perm.append_left c.items (ih cs2 hj)

theorem joinFirst_wf (f : ProcessedFile) (hft : clusterTokensOf f ≠ []) :
    ∀ cs cs' : List Cluster, (∀ c ∈ cs, clusterWf c) →
      joinFirst (clusterTokensOf f) f cs = some cs' →
      ∀ c ∈ cs', clusterWf c := by
  intro cs
  induction cs with
  | nil => intro cs' _ h; cases h
  | cons c cs ih =>
    intro cs' hwf h
    simp only [joinFirst] at h
    split at h
    · rename_i hcond
      injection h with h2
      subst h2
      intro d hd
      rcases List.mem_cons.mp hd with rfl | hdcs
      · have hc := hwf c (List.mem_cons_self c cs)
        have htokne : c.tokens ≠ [] := by
          simp only [Bool.and_eq_true, Bool.not_eq_true', List.isEmpty_eq_false]
            at hcond
          exact hcond.1
        refine ⟨by simp, ?_, ?_⟩
        · right
          rcases hc.2.1 with ⟨g, hitems, htok⟩ | htok
          · show (firstDedup (c.tokens ++ clusterTokensOf f)).take 12 =
              (firstDedup ((c.items ++ [f]).flatMap clusterTokensOf)).take 12
            rw [hitems, htok]
            simp only [List.flatMap_append, List.flatMap_cons, List.flatMap_nil,
              List.append_nil]
          · show (firstDedup (c.tokens ++ clusterTokensOf f)).take 12 =
              (firstDedup ((c.items ++ [f]).flatMap clusterTokensOf)).take 12
            rw [htok, firstDedup_take_append]
            simp only [List.flatMap_append, List.flatMap_cons, List.flatMap_nil,
              List.append_nil]
        · intro g hg hgtok
          rcases List.mem_append.mp hg with hg1 | hg2
          · exact absurd (hc.2.2 g hg1 hgtok).1 htokne
          · rw [List.mem_singleton] at hg2
            subst hg2
            exact absurd hgtok hft
      · exact hwf d (List.mem_cons_of_mem c hdcs)
    · cases hj : joinFirst (clusterTokensOf f) f cs with
      | none =>
        simp only [hj] at h
        exact Option.noConfusion h
      | some cs2 =>
        simp only [hj] at h
        injection h with h2
        subst h2
        intro d hd
        rcases List.mem_cons.mp hd with rfl | hdcs
        · exact hwf d (List.mem_cons_self d cs)
        · exact ih cs2 (fun e he => hwf e (List.mem_cons_of_mem c he)) hj d hdcs

theorem clusterStep_wf (cs : List Cluster) (f : ProcessedFile)
    (h : ∀ c ∈ cs, clusterWf c) : ∀ c ∈ clusterStep cs f, clusterWf c := by
  simp only [clusterStep]
  by_cases hft : clusterTokensOf f = []
  · rw [if_pos hft]
    intro c hc
    rcases List.mem_append.mp hc with hc1 | hc2
    · exact h c hc1
    · rw [List.mem_singleton] at hc2
      subst hc2
      refine ⟨by simp, Or.inl ⟨f, rfl, hft.symm⟩, ?_⟩
      intro g hg _
      rw [List.mem_singleton] at hg
      subst hg
      exact ⟨rfl, rfl⟩
  · rw [if_neg hft]
    cases hj : joinFirst (clusterTokensOf f) f cs with
    | some cs2 =>
      simp only [hj]
      intro c hc
      exact joinFirst_wf f hft cs cs2 h hj c hc
    | none =>
      simp only [hj]
      intro c hc
      rcases List.mem_append.mp hc with hc1 | hc2
      · exact h c hc1
      · rw [List.mem_singleton] at hc2
        subst hc2
        refine ⟨by simp, Or.inl ⟨f, rfl, rfl⟩, ?_⟩
        intro g hg hgtok
        rw [List.mem_singleton] at hg
        subst hg
        exact absurd hgtok hft

theorem clusterStep_items_perm (cs : List Cluster) (f : ProcessedFile) :
    List.Perm ((clusterStep cs f).flatMap (fun c => c.items))
      (cs.flatMap (fun c => c.items) ++ [f]) := by
  simp only [clusterStep]
  by_cases hft : clusterTokensOf f = []
  · rw [if_pos hft]
    simp only [List.flatMap_append, List.flatMap_cons, List.flatMap_nil,
      List.append_nil]
    exact List.Perm.refl _
  · rw [if_neg hft]
    cases hj : joinFirst (clusterTokensOf f) f cs with
    | some cs2 =>
      simp only [hj]
      exact joinFirst_items_perm (clusterTokensOf f) f cs cs2 hj
    | none =>
      simp only [hj, List.flatMap_append, List.flatMap_cons, List.flatMap_nil,
        List.append_nil]
      exact List.Perm.refl _

theorem buildClusters_foldl_aux (files : List ProcessedFile) :
    ∀ cs : List Cluster, (∀ c ∈ cs, clusterWf c) →
      (∀ c ∈ files.foldl clusterStep cs, clusterWf c) ∧
      List.Perm ((files.foldl clusterStep cs).flatMap (fun c => c.items))
        (cs.flatMap (fun c => c.items) ++ files) := by
  induction files with
  | nil =>
    intro cs h
    refine ⟨h, ?_⟩
    simp
  | cons f fs ih =>
    intro cs h
    simp only [List.foldl_cons]
    have h1 := clusterStep_wf cs f h
    refine ⟨(ih (clusterStep cs f) h1).1, ?_⟩
    have h4 := (ih (clusterStep cs f) h1).2.trans
      (List.Perm.append_right fs (clusterStep_items_perm cs f))
    simpa only [List.append_assoc, List.singleton_append] using h4

theorem clusterWf_tokens_iff (c : Cluster) (h : clusterWf c) (t : Str) :
    t ∈ c.tokens ↔ t ∈ (firstDedup (c.items.flatMap clusterTokensOf)).take 12 := by
  rcases h.2.1 with ⟨g, hitems, htok⟩ | htok
  · rw [hitems, htok]
    simp only [List.flatMap_cons, List.flatMap_nil, List.append_nil]
    have h1 : (firstDedup (clusterTokensOf g)).length ≤ 12 :=
      le_trans (firstDedup_length_le (clusterTokensOf g)) (clusterTokensOf_len_le g)
    rw [List.take_of_length_le h1, mem_firstDedup]
  · rw [htok]

/-- Claim C9, counterexample: on the two review files with text samples
"alpha beta" and "alpha alpha" the code merges both into a single
cluster, although the two files share only one distinct token (the
deduplicated tokens of the second file that occur among the first
file's tokens are exactly one).  The overlap the code computes counts
the second file's token list with multiplicity — `["alpha", "alpha"]`
contributes 2 — so under the claim's reading (a token *set* sharing at
least 2 tokens) the second file would have to start a new cluster. -/
theorem claim_C9_counterexample :
    (buildReviewClusters
      [reviewFile "f1" "alpha beta", reviewFile "f2" "alpha alpha"]).length = 1 ∧
    ((firstDedup (clusterTokensOf (reviewFile "f2" "alpha alpha"))).filter
      (fun t => decide (t ∈ clusterTokensOf (reviewFile "f1" "alpha beta")))).length
      = 1 ∧
    overlapCount (clusterTokensOf (reviewFile "f2" "alpha alpha"))
      (clusterTokensOf (reviewFile "f1" "alpha beta")) = 2 := by
  decide

/-- Claim C9, amended: `buildReviewClusters` is the greedy single pass
whose per-file step is `clusterStep` (join the first cluster, in
creation order, with nonempty tokens whose overlap — counted over the
file's token-list entries *with multiplicity*, not over distinct
tokens — is at least 2, else start a new cluster); every input file
lands in exactly one cluster (the clusters' member lists are a
permutation of the input); a file with zero eligible tokens is always
alone in its cluster, which carries no tokens; and a cluster's token
list represents the set of its members' tokens, first-occurrence
deduplicated and capped at 12. -/
theorem claim_C9_amended :
    (∀ (files : List ProcessedFile) (f : ProcessedFile),
      buildReviewClusters (files ++ [f]) = clusterStep (buildReviewClusters files) f) ∧
    (∀ files : List ProcessedFile,
      List.Perm ((buildReviewClusters files).flatMap (fun c => c.items)) files) ∧
    (∀ files : List ProcessedFile, ∀ c ∈ buildReviewClusters files,
      c.items ≠ [] ∧
      (∀ f ∈ c.items, clusterTokensOf f = [] → c.tokens = [] ∧ c.items = [f]) ∧
      (∀ t : Str, t ∈ c.tokens ↔
        t ∈ (firstDedup (c.items.flatMap clusterTokensOf)).take 12)) := by
  refine ⟨?_, ?_, ?_⟩
  · intro files f
    unfold buildReviewClusters
    rw [List.foldl_append]
    rfl
  · intro files
    have h := (buildClusters_foldl_aux files []
      (fun c hc => absurd hc (List.not_mem_nil c))).2
    simpa using h
  · intro files c hc
    have hwf := (buildClusters_foldl_aux files []
      (fun c hc => absurd hc (List.not_mem_nil c))).1 c hc
    exact ⟨hwf.1, hwf.2.2, fun t => clusterWf_tokens_iff c hwf t⟩

/-- Claim C9, witness: the amended theorem applied to the concrete run
with a two-token file followed by a file with no eligible tokens: the
fold-step equation, the partition of the inputs, and the zero-token
singleton invariant for the second cluster the run creates. -/
theorem claim_C9_witness :
    buildReviewClusters [reviewFile "f4" "gamma delta", reviewFile "f3" ""] =
      clusterStep (buildReviewClusters [reviewFile "f4" "gamma delta"])
        (reviewFile "f3" "") ∧
    List.Perm
      ((buildReviewClusters [reviewFile "f4" "gamma delta",
        reviewFile "f3" ""]).flatMap (fun c => c.items))
      [reviewFile "f4" "gamma delta", reviewFile "f3" ""] ∧
    (({ id := str "cluster-2", tokens := [], items := [reviewFile "f3" ""] } : Cluster).tokens = [] ∧
      ({ id := str "cluster-2", tokens := [], items := [reviewFile "f3" ""] } : Cluster).items = [reviewFile "f3" ""]) :=
  ⟨claim_C9_amended.1 [reviewFile "f4" "gamma delta"] (reviewFile "f3" ""),
   claim_C9_amended.2.1 [reviewFile "f4" "gamma delta", reviewFile "f3" ""],
   (claim_C9_amended.2.2 [reviewFile "f4" "gamma delta", reviewFile "f3" ""]
      { id := str "cluster-2", tokens := [], items := [reviewFile "f3" ""] }
      (by decide)).2.1 (reviewFile "f3" "") (by decide) (by decide)⟩

/-! Lemmas for configuration validation (claim C8). -/

theorem except_bind_ok {ε α β : Type} (a : α) (f : α → Except ε β) :
    ((Except.ok a : Except ε α) >>= f) = f a := rfl

theorem except_bind_error {ε α β : Type} (e : ε) (f : α → Except ε β) :
    ((Except.error e : Except ε α) >>= f) = Except.error e := rfl

theorem except_bind_eq_ok {ε α β : Type} {x : Except ε α} {f : α → Except ε β} {b : β}
    (h : (x >>= f) = .ok b) : ∃ a, x = .ok a ∧ f a = .ok b := by
  cases x with
  | error e => rw [except_bind_error] at h; exact Except.noConfusion h
  | ok a => exact ⟨a, rfl, h⟩

theorem guard_nil (b : Bool) (m : Str) :
    (if (!b) = true then [m] else []) = ([] : List Str) ↔ b = true := by
  cases b <;> simp

theorem jsGetMember_ok {v : JsVal} {k : Str} {t : JsVal}
    (h : jsGetMember v k = .ok t) : t = getField v k := by
  cases v <;> simp only [jsGetMember] at h <;> first
    | exact Except.noConfusion h
    | exact (Except.ok.inj h).symm

theorem jsGetMember_eq_ok {v : JsVal} (k : Str)
    (h1 : v ≠ .vUndefined) (h2 : v ≠ .vNull) :
    jsGetMember v k = .ok (getField v k) := by
  cases v <;> first | rfl | exact absurd rfl h1 | exact absurd rfl h2

theorem isStr_getField_not_nullish {v : JsVal} {k : Str}
    (h : isStr (getField v k) = true) : v ≠ .vUndefined ∧ v ≠ .vNull := by
  refine ⟨?_, ?_⟩ <;> intro hv <;> subst hv <;> simp [getField, isStr] at h

theorem isArr_exists {v : JsVal} (h : isArr v = true) : ∃ xs, v = .vArr xs := by
  cases v <;> first | exact ⟨_, rfl⟩ | simp [isArr] at h

theorem validateTermList_all_ok (kind dispId : Str) :
    ∀ (l : List JsVal) (i : Nat), l.all termOkB = true →
      validateTermList kind dispId l i = .ok [] := by
  intro l
  induction l with
  | nil => intro i _; rfl
  | cons keyword rest ih =>
    intro i hall
    rw [List.all_cons, Bool.and_eq_true] at hall
    have h1 := hall.1
    simp only [termOkB, Bool.and_eq_true] at h1
    have hnn := isStr_getField_not_nullish h1.1
    simp [validateTermList, jsGetMember_eq_ok (str "term") hnn.1 hnn.2,
      jsGetMember_eq_ok (str "weight") hnn.1 hnn.2, except_bind_ok, h1.1, h1.2,
      ih (i + 1) hall.2]

theorem validateTermList_nil_all (kind dispId : Str) :
    ∀ (l : List JsVal) (i : Nat) (es : List Str),
      validateTermList kind dispId l i = .ok es → es = [] →
      l.all termOkB = true := by
  intro l
  induction l with
  | nil => intro i es _ _; rfl
  | cons keyword rest ih =>
    intro i es h hes
    subst hes
    simp only [validateTermList] at h
    obtain ⟨term, hterm, h⟩ := except_bind_eq_ok h
    obtain ⟨weight, hweight, h⟩ := except_bind_eq_ok h
    obtain ⟨more, hmore, h⟩ := except_bind_eq_ok h
    have hh := Except.ok.inj h
    rw [List.append_eq_nil, List.append_eq_nil] at hh
    obtain ⟨⟨h1, h2⟩, h3⟩ := hh
    have ht := (guard_nil (isStr term) _).mp h1
    have hw := (guard_nil (isNonNanNum weight) _).mp h2
    rw [jsGetMember_ok hterm] at ht
    rw [jsGetMember_ok hweight] at hw
    rw [List.all_cons, Bool.and_eq_true]
    refine ⟨?_, ih (i + 1) more hmore h3⟩
    simp only [termOkB, Bool.and_eq_true]
    exact ⟨ht, hw⟩

theorem validateSchedules_all_ok :
    ∀ (l : List JsVal) (i : Nat), l.all scheduleOkB = true →
      validateSchedules l i = .ok [] := by
  intro l
  induction l with
  | nil => intro i _; rfl
  | cons schedule rest ih =>
    intro i hall
    rw [List.all_cons, Bool.and_eq_true] at hall
    have hs := hall.1
    simp only [scheduleOkB, Bool.and_eq_true] at hs
    obtain ⟨⟨⟨⟨⟨⟨⟨htr, hob⟩, hid⟩, hlab⟩, hkwA⟩, hstA⟩, hkwAll⟩, hstAll⟩ := hs
    obtain ⟨kxs, hkxs⟩ := isArr_exists hkwA
    obtain ⟨sxs, hsxs⟩ := isArr_exists hstA
    rw [hkxs] at hkwAll
    rw [hsxs] at hstAll
    simp only [asArr] at hkwAll hstAll
    simp [validateSchedules, htr, hob, hid, hlab, hkxs, hsxs, isArr, asArr,
      jsNullish, jsEntriesArr, except_bind_ok,
      validateTermList_all_ok (str "keyword") _ kxs 0 hkwAll,
      validateTermList_all_ok (str "smallTerm") _ sxs 0 hstAll,
      ih (i + 1) hall.2]

theorem validateSchedules_nil_all :
    ∀ (l : List JsVal) (i : Nat) (es : List Str),
      validateSchedules l i = .ok es → es = [] → l.all scheduleOkB = true := by
  intro l
  induction l with
  | nil => intro i es _ _; rfl
  | cons schedule rest ih =>
    intro i es h hes
    subst hes
    simp only [validateSchedules] at h
    by_cases hto : (!(truthy schedule) || !(isObjectType schedule)) = true
    · rw [if_pos hto] at h
      obtain ⟨more, hmore, h⟩ := except_bind_eq_ok h
      exact absurd (Except.ok.inj h) (by simp)
    · rw [if_neg hto] at h
      have htr : truthy schedule = true := by
        cases hT : truthy schedule
        · exact absurd (by simp [hT]) hto
        · rfl
      have hob : isObjectType schedule = true := by
        cases hT : isObjectType schedule
        · exact absurd (by simp [hT]) hto
        · rfl
      obtain ⟨kwEntries, hkw, h⟩ := except_bind_eq_ok h
      obtain ⟨e5, h5, h⟩ := except_bind_eq_ok h
      obtain ⟨stEntries, hst, h⟩ := except_bind_eq_ok h
      obtain ⟨e6, h6, h⟩ := except_bind_eq_ok h
      obtain ⟨more, hmore, h⟩ := except_bind_eq_ok h
      have hh := Except.ok.inj h
      simp only [List.append_eq_nil] at hh
      obtain ⟨⟨⟨⟨⟨⟨h1, h2⟩, h3⟩, h4⟩, h5n⟩, h6n⟩, h7⟩ := hh
      have hid := (guard_nil (isNonEmptyStr (getField schedule (str "id"))) _).mp h1
      have hlab := (guard_nil (isNonEmptyStr (getField schedule (str "label"))) _).mp h2
      have hkwA := (guard_nil (isArr (getField schedule (str "keywords"))) _).mp h3
      have hstA := (guard_nil (isArr (getField schedule (str "smallTerms"))) _).mp h4
      obtain ⟨kxs, hkxs⟩ := isArr_exists hkwA
      obtain ⟨sxs, hsxs⟩ := isArr_exists hstA
      rw [hkxs] at hkw
      rw [hsxs] at hst
      simp only [jsNullish, jsEntriesArr] at hkw hst
      have hkeq := Except.ok.inj hkw
      have hseq := Except.ok.inj hst
      subst h5n
      subst h6n
      rw [← hkeq] at h5
      rw [← hseq] at h6
      rw [List.all_cons, Bool.and_eq_true]
      refine ⟨?_, ih (i + 1) more hmore h7⟩
      simp only [scheduleOkB, Bool.and_eq_true]
      refine ⟨⟨⟨⟨⟨⟨⟨htr, hob⟩, hid⟩, hlab⟩, hkwA⟩, hstA⟩, ?_⟩, ?_⟩
      · rw [hkxs]
        simp only [asArr]
        exact validateTermList_nil_all (str "keyword") _ kxs 0 [] h5 rfl
      · rw [hsxs]
        simp only [asArr]
        exact validateTermList_nil_all (str "smallTerm") _ sxs 0 [] h6 rfl

theorem rulePatternErrors_nil (rc : Str → Option Str) (i : Nat) (v : JsVal) :
    rulePatternErrors rc i v = [] ↔
      (isNonEmptyStr v = true ∧
        (match v with | .vStr s => (rc s).isNone | _ => false) = true) := by
  cases v with
  | vStr s =>
    by_cases he : s.isEmpty = true
    · simp [rulePatternErrors, isNonEmptyStr, he]
    · have he' : s.isEmpty = false := Bool.eq_false_iff.mpr he
      cases hrc : rc s with
      | none => simp [rulePatternErrors, isNonEmptyStr, he', hrc]
      | some err => simp [rulePatternErrors, isNonEmptyStr, he', hrc]
  | vUndefined => simp [rulePatternErrors, isNonEmptyStr]
  | vNull => simp [rulePatternErrors, isNonEmptyStr]
  | vBool b => simp [rulePatternErrors, isNonEmptyStr]
  | vNum n => simp [rulePatternErrors, isNonEmptyStr]
  | vArr xs => simp [rulePatternErrors, isNonEmptyStr]
  | vObj fs => simp [rulePatternErrors, isNonEmptyStr]

theorem validateRules_all_ok (rc : Str → Option Str) :
    ∀ (l : List JsVal) (i : Nat), l.all (ruleOkB rc) = true →
      validateRules rc l i = .ok [] := by
  intro l
  induction l with
  | nil => intro i _; rfl
  | cons rule rest ih =>
    intro i hall
    rw [List.all_cons, Bool.and_eq_true] at hall
    have hr := hall.1
    simp only [ruleOkB, Bool.and_eq_true] at hr
    obtain ⟨⟨⟨⟨htr, hob⟩, hpat⟩, hre⟩, hsch⟩ := hr
    have hp1 : rulePatternErrors rc i (getField rule (str "pattern")) = [] :=
      (rulePatternErrors_nil rc i _).mpr ⟨hpat, hre⟩
    simp [validateRules, htr, hob, hsch, hp1, except_bind_ok, ih (i + 1) hall.2]

theorem validateRules_nil_all (rc : Str → Option Str) :
    ∀ (l : List JsVal) (i : Nat) (es : List Str),
      validateRules rc l i = .ok es → es = [] → l.all (ruleOkB rc) = true := by
  intro l
  induction l with
  | nil => intro i es _ _; rfl
  | cons rule rest ih =>
    intro i es h hes
    subst hes
    simp only [validateRules] at h
    by_cases hto : (!(truthy rule) || !(isObjectType rule)) = true
    · rw [if_pos hto] at h
      obtain ⟨more, hmore, h⟩ := except_bind_eq_ok h
      exact absurd (Except.ok.inj h) (by simp)
    · rw [if_neg hto] at h
      have htr : truthy rule = true := by
        cases hT : truthy rule
        · exact absurd (by simp [hT]) hto
        · rfl
      have hob : isObjectType rule = true := by
        cases hT : isObjectType rule
        · exact absurd (by simp [hT]) hto
        · rfl
      obtain ⟨more, hmore, h⟩ := except_bind_eq_ok h
      have hh := Except.ok.inj h
      simp only [List.append_eq_nil] at hh
      obtain ⟨⟨h1, h2⟩, h3⟩ := hh
      have hpat := (rulePatternErrors_nil rc i _).mp h1
      have hsch := (guard_nil (isNonEmptyStr (getField rule (str "schedule"))) _).mp h2
      rw [List.all_cons, Bool.and_eq_true]
      refine ⟨?_, ih (i + 1) more hmore h3⟩
      simp only [ruleOkB, Bool.and_eq_true]
      exact ⟨⟨⟨⟨htr, hob⟩, hpat.1⟩, hpat.2⟩, hsch⟩

theorem config_result_ne_nil {E : List Str} {raw : JsVal}
    {res : Option JsVal × List Str}
    (h : (if E.length > 0 then (Except.ok ((none : Option JsVal), E) : Except Unit (Option JsVal × List Str))
          else Except.ok ((some raw : Option JsVal), ([] : List Str))) = .ok res)
    (hne : E ≠ []) : res.1 = none ∧ res.2 ≠ [] := by
  rw [if_pos (List.length_pos.mpr hne)] at h
  have hres := Except.ok.inj h
  subst hres
  exact ⟨rfl, hne⟩

theorem validateConfig_ok_cases (rc : Str → Option Str) (raw : JsVal) :
    ∀ res, validateScheduleConfig rc raw = .ok res →
      (res = (some raw, []) ∧ wellFormedConfig rc raw = true) ∨
      (res.1 = none ∧ res.2 ≠ []) := by
  intro res h
  simp only [validateScheduleConfig] at h
  by_cases hto : (!(truthy raw) || !(isObjectType raw)) = true
  · rw [if_pos hto] at h
    right
    have hres := Except.ok.inj h
    subst hres
    exact ⟨rfl, by simp⟩
  · rw [if_neg hto] at h
    have htr : truthy raw = true := by
      cases hT : truthy raw
      · exact absurd (by simp [hT]) hto
      · rfl
    have hob : isObjectType raw = true := by
      cases hT : isObjectType raw
      · exact absurd (by simp [hT]) hto
      · rfl
    obtain ⟨e3, h3, h⟩ := except_bind_eq_ok h
    obtain ⟨e4, h4, h⟩ := except_bind_eq_ok h
    by_cases hA : isArr (getField raw (str "schedules")) = true
    · have hc1 : ¬((!isArr (getField raw (str "schedules"))) = true) := by simp [hA]
      rw [if_neg hc1] at h
      by_cases hB : isArr (getField raw (str "filenameRules")) = true
      · have hc2 : ¬((!isArr (getField raw (str "filenameRules"))) = true) := by
          simp [hB]
        rw [if_neg hc2] at h
        simp only [List.nil_append] at h
        by_cases hnil : e3 ++ e4 = []
        · left
          rw [hnil] at h
          rw [if_neg (by simp)] at h
          have hres := Except.ok.inj h
          rw [List.append_eq_nil] at hnil
          refine ⟨hres.symm, ?_⟩
          simp only [wellFormedConfig, Bool.and_eq_true]
          exact ⟨⟨⟨⟨⟨htr, hob⟩, hA⟩, hB⟩,
            validateSchedules_nil_all _ 0 e3 h3 hnil.1⟩,
            validateRules_nil_all rc _ 0 e4 h4 hnil.2⟩
        · right
          exact config_result_ne_nil h hnil
      · right
        have hc2 : (!isArr (getField raw (str "filenameRules"))) = true := by
          simp [Bool.eq_false_iff.mpr hB]
        rw [if_pos hc2] at h
        exact config_result_ne_nil h (by simp)
    · right
      have hc1 : (!isArr (getField raw (str "schedules"))) = true := by
        simp [Bool.eq_false_iff.mpr hA]
      rw [if_pos hc1] at h
      exact config_result_ne_nil h (by simp)

/-- Claim C8, amended: for every input value on which it returns,
`validateScheduleConfig` either passes all the structural checks the
code performs and returns the input itself as the config with an empty
error list, or returns no config and a non-empty error list — it never
adopts a partially valid configuration.  Two corrections to the claim:
the per-weight check is `typeof w === 'number' && !Number.isNaN(w)`, so
the non-finite weights `Infinity` and `-Infinity` are accepted rather
than rejected (`wellFormedConfig` records exactly the checks performed);
and the validator can fail in another way, by throwing a `TypeError`
(modelled as `Except.error`), when a schedule carries a truthy
non-array keyword or small-term list or a `null`/`undefined` entry
inside one. -/
theorem claim_C8_amended (regexCheck : Str → Option Str) (raw : JsVal) :
    (∀ res, validateScheduleConfig regexCheck raw = .ok res →
      (res = (some raw, []) ∧ wellFormedConfig regexCheck raw = true) ∨
      (res.1 = none ∧ res.2 ≠ [])) ∧
    (wellFormedConfig regexCheck raw = true →
      validateScheduleConfig regexCheck raw = .ok (some raw, [])) := by
  constructor
  · exact validateConfig_ok_cases regexCheck raw
  · intro hwf
    simp only [wellFormedConfig, Bool.and_eq_true] at hwf
    obtain ⟨⟨⟨⟨⟨htr, hob⟩, hA⟩, hB⟩, hsAll⟩, hrAll⟩ := hwf
    obtain ⟨ss, hss⟩ := isArr_exists hA
    obtain ⟨rs, hrs⟩ := isArr_exists hB
    rw [hss] at hsAll
    rw [hrs] at hrAll
    simp only [asArr] at hsAll hrAll
    simp [validateScheduleConfig, htr, hob, hA, hB, hss, hrs, isArr, asArr,
      except_bind_ok, validateSchedules_all_ok ss 0 hsAll,
      validateRules_all_ok regexCheck rs 0 hrAll]

/-- Claim C8, counterexample: the claim is wrong in both of its
absolute parts.  A configuration whose only keyword weight is
`Infinity` — not a finite number — is accepted outright with an empty
error list; and on a configuration whose schedule has the number `5`
as its `keywords` field the validator does not return an error list at
all but throws, because after recording the array error it still
evaluates `(schedule.keywords ?? []).entries()`. -/
theorem claim_C8_counterexample :
    validateScheduleConfig (fun _ => none) rawCfgInf = .ok (some rawCfgInf, []) ∧
    validateScheduleConfig (fun _ => none) rawCfgThrow = .error () :=
  ⟨rfl, rfl⟩

/-- Claim C8, witness: the amended theorem applied to a concrete fully
valid configuration (one schedule, one finite-weight keyword, one
compiling filename rule): it is well formed and accepted verbatim with
no errors. -/
theorem claim_C8_witness :
    wellFormedConfig (fun _ => none) rawCfgOk = true ∧
    validateScheduleConfig (fun _ => none) rawCfgOk = .ok (some rawCfgOk, []) :=
  ⟨by decide, (claim_C8_amended (fun _ => none) rawCfgOk).2 (by decide)⟩

end Estate
